import Mathlib

/-!
Shallow embedding of `tex_checker.py` (a regex-based TeX linter) and proofs
about the claims of its specification.

Modelling conventions:
* Python `str` values are modelled as `List Char` (abbreviated `Str`); the
  `String` wrapper is used only to write concrete literals, via `String.data`.
* Each `re`-based source function is translated into a direct scanning
  function with the same semantics as CPython's `re` engine on its concrete
  pattern (leftmost match, non-overlapping `re.sub`/`re.findall`, greedy and
  non-greedy backtracking resolved by hand for the fixed pattern).  Where a
  pattern is per-line (`re.MULTILINE`, no `re.DOTALL`, `.` and the character
  classes all excluding the newline), the function is expressed through
  `splitNL`/`joinNL`, i.e. as a per-line transformation.
* Line structure: `\n` is the only line separator modelled (the source's
  `splitlines` also splits at rarer control characters).
* The pattern of `stripeqns` contains the escape `\\\e`; CPython < 3.6
  treated the unknown escape `\e` as a literal `e` (so the group matches
  `\end{...}`), while CPython >= 3.6 raises `re.error` when the pattern is
  compiled.  The embedding uses the historical (clearly intended) semantics:
  the close marker is the literal `\end{...}`.
* Functions whose recursion jumps over a matched region are written with an
  explicit fuel argument initialised to the length of the input (every step
  consumes at least one character, so the fuel never runs out); this keeps
  every definition reducible by the kernel, and fuel-irrelevance lemmas
  recover the natural recursion equations.
-/

/-- Python strings are modelled as lists of characters. -/
abbrev Str := List Char

/-- Number of newline characters; a string with `countNL s = n` prints as
`n + 1` lines, so "same number of lines" is "same `countNL`". -/
def countNL (cs : Str) : Nat := cs.count '\n'

/-- Split at `'\n'` keeping empty pieces, like Python `s.split("\n")`:
`splitNL "a\nb" = ["a", "b"]`, `splitNL "" = [""]`. -/
def splitNL : Str → List Str
  | [] => [[]]
  | c :: t =>
    if c = '\n' then [] :: splitNL t
    else (c :: (splitNL t).headD []) :: (splitNL t).tail

/-- Join lines with `'\n'`, the inverse of `splitNL`. -/
def joinNL : List Str → Str
  | [] => []
  | [l] => l
  | l :: l' :: r => l ++ '\n' :: joinNL (l' :: r)

/-- Python `str.splitlines()` for `\n`-separated text: like `splitNL` but a
trailing newline does not produce a final empty line, and `"" ↦ []`. -/
def pySplitlines (cs : Str) : List Str :=
  let r := splitNL cs
  if r.getLast? = some [] then r.dropLast else r

/-- The characters Python `str.split()` treats as (ASCII) whitespace. -/
def pyIsSpace (c : Char) : Bool :=
  c = ' ' ∨ c = '\t' ∨ c = '\n' ∨ c = '\r' ∨ c = '\x0b' ∨ c = '\x0c'

/-- Python `str.split()`: whitespace-delimited tokens, empties dropped. -/
def pyWords : Str → List Str
  | [] => []
  | c :: t =>
    if pyIsSpace c then pyWords t
    else
      match pyWords t with
      | [] => [[c]]
      | w :: r =>
        match t with
        | [] => [[c]]
        | d :: _ => if pyIsSpace d then [c] :: w :: r else (c :: w) :: r

/-- Substring test: does `pat` occur (contiguously) in `cs`? -/
def hasSub (pat : Str) : Str → Bool
  | [] => pat.isPrefixOf []
  | c :: t => pat.isPrefixOf (c :: t) || hasSub pat (c :: t).tail

/-- Leftmost occurrence split: `splitSub pat cs = some (a, b)` with
`cs = a ++ pat ++ b` and `pat` not occurring earlier. -/
def splitSub (pat : Str) : Str → Option (Str × Str)
  | [] => if pat.isPrefixOf [] then some ([], []) else none
  | c :: t =>
    if pat.isPrefixOf (c :: t) then some ([], (c :: t).drop pat.length)
    else (splitSub pat t).map (fun p => (c :: p.1, p.2))

/-- Strip a literal prefix: `stripPre pat cs = some rest` iff `cs = pat ++ rest`. -/
def stripPre (pat : Str) (cs : Str) : Option Str :=
  if pat.isPrefixOf cs then some (cs.drop pat.length) else none

section BasicLemmas

theorem isPrefixOf_eq_true_iff (pat cs : Str) :
    pat.isPrefixOf cs = true ↔ ∃ t, cs = pat ++ t := by
  induction pat generalizing cs with
  | nil => simp [List.isPrefixOf]
  | cons p ps ih =>
    cases cs with
    | nil => simp [List.isPrefixOf]
    | cons c t =>
      simp only [List.isPrefixOf, Bool.and_eq_true, beq_iff_eq, ih, List.cons_append,
        List.cons.injEq]
      constructor
      · rintro ⟨rfl, u, rfl⟩; exact ⟨u, rfl, rfl⟩
      · rintro ⟨u, rfl, rfl⟩; exact ⟨rfl, u, rfl⟩

theorem isPrefixOf_append_self (pat t : Str) : pat.isPrefixOf (pat ++ t) = true := by
  rw [isPrefixOf_eq_true_iff]; exact ⟨t, rfl⟩

theorem stripPre_eq_some {pat cs rest : Str} (h : stripPre pat cs = some rest) :
    cs = pat ++ rest := by
  unfold stripPre at h
  split at h
  · rename_i hp
    obtain ⟨t, rfl⟩ := (isPrefixOf_eq_true_iff pat cs).mp hp
    rw [List.drop_left] at h
    injection h with h
    rw [h]
  · exact absurd h (by simp)

theorem stripPre_append (pat t : Str) : stripPre pat (pat ++ t) = some t := by
  unfold stripPre
  rw [isPrefixOf_append_self]
  simp [List.drop_left]

theorem stripPre_length {pat cs rest : Str} (h : stripPre pat cs = some rest) :
    rest.length + pat.length = cs.length := by
  have := stripPre_eq_some h
  subst this; simp [Nat.add_comm]

/-- A prefix test against `x ++ '\n' :: y` for a newline-free pattern only
sees `x`. -/
theorem isPrefixOf_append_newline {pat : Str} (hn : '\n' ∉ pat) (x y : Str) :
    pat.isPrefixOf (x ++ '\n' :: y) = pat.isPrefixOf x := by
  induction pat generalizing x with
  | nil => simp [List.isPrefixOf]
  | cons p ps ih =>
    cases x with
    | nil =>
      have hp : p ≠ '\n' := by intro h; exact hn (h ▸ List.mem_cons_self p ps)
      simp [List.isPrefixOf, hp]
    | cons c t =>
      have hn' : '\n' ∉ ps := fun h => hn (List.mem_cons_of_mem p h)
      simp [List.isPrefixOf, ih hn']

theorem hasSub_cons (pat : Str) (c : Char) (t : Str) :
    hasSub pat (c :: t) = (pat.isPrefixOf (c :: t) || hasSub pat t) := rfl

/-- A newline-free pattern occurs in `x ++ '\n' :: y` iff it occurs in `x` or
in `y`. -/
theorem hasSub_append_newline {pat : Str} (hpat : pat ≠ []) (hn : '\n' ∉ pat)
    (x y : Str) : hasSub pat (x ++ '\n' :: y) = (hasSub pat x || hasSub pat y) := by
  induction x with
  | nil =>
    have h0 : pat.isPrefixOf [] = false := by
      cases pat with
      | nil => exact absurd rfl hpat
      | cons p ps => rfl
    have h1 : pat.isPrefixOf ('\n' :: y) = pat.isPrefixOf [] :=
      isPrefixOf_append_newline hn [] y
    simp only [List.nil_append, hasSub, h0, h1, List.tail_cons, Bool.false_or]
  | cons c t ih =>
    have h1 : (c :: t) ++ '\n' :: y = c :: (t ++ '\n' :: y) := rfl
    rw [h1, hasSub_cons, ih, ← h1, isPrefixOf_append_newline hn (c :: t) y,
      hasSub_cons, Bool.or_assoc]

theorem hasSub_append_left {pat : Str} (hpat : pat ≠ []) (x y : Str)
    (h : hasSub pat x = true) : hasSub pat (x ++ y) = true := by
  induction x with
  | nil =>
    exfalso
    cases pat with
    | nil => exact hpat rfl
    | cons p ps => simp [hasSub, List.isPrefixOf] at h
  | cons c t ih =>
    simp only [hasSub_cons, Bool.or_eq_true] at h
    rcases h with h | h
    · obtain ⟨u, hu⟩ := (isPrefixOf_eq_true_iff _ _).mp h
      simp only [List.cons_append, hasSub_cons, Bool.or_eq_true]
      left
      rw [isPrefixOf_eq_true_iff]
      exact ⟨u ++ y, by rw [← List.append_assoc, ← hu, List.cons_append]⟩
    · simp only [List.cons_append, hasSub_cons, Bool.or_eq_true]
      right
      exact ih h

theorem hasSub_append_right {pat : Str} (x y : Str)
    (h : hasSub pat y = true) : hasSub pat (x ++ y) = true := by
  induction x with
  | nil => simpa using h
  | cons c t ih =>
    simp only [List.cons_append, hasSub_cons, Bool.or_eq_true]
    right
    exact ih

/-- Occurrence characterisation of `hasSub`. -/
theorem hasSub_iff (pat cs : Str) :
    hasSub pat cs = true ↔ ∃ a b, cs = a ++ pat ++ b := by
  induction cs with
  | nil =>
    constructor
    · intro h
      cases pat with
      | nil => exact ⟨[], [], rfl⟩
      | cons p ps => simp [hasSub, List.isPrefixOf] at h
    · rintro ⟨a, b, hab⟩
      have h1 : (a ++ pat) ++ b = [] := hab.symm
      rw [List.append_eq_nil, List.append_eq_nil] at h1
      rw [h1.1.2]
      rfl
  | cons c t ih =>
    rw [hasSub_cons, Bool.or_eq_true, isPrefixOf_eq_true_iff, ih]
    constructor
    · rintro (⟨u, hu⟩ | ⟨a, b, rfl⟩)
      · exact ⟨[], u, by simpa using hu⟩
      · exact ⟨c :: a, b, rfl⟩
    · rintro ⟨a, b, hab⟩
      cases a with
      | nil => exact Or.inl ⟨b, by simpa using hab⟩
      | cons a0 as =>
        right
        simp only [List.cons_append, List.cons.injEq] at hab
        exact ⟨as, b, hab.2⟩

theorem splitSub_eq_none_of_not_hasSub {pat : Str} (cs : Str)
    (h : hasSub pat cs = false) : splitSub pat cs = none := by
  induction cs with
  | nil =>
    unfold hasSub at h
    unfold splitSub
    simp [h]
  | cons c t ih =>
    simp only [hasSub_cons, Bool.or_eq_false_iff] at h
    unfold splitSub
    simp [h.1, ih h.2]

end BasicLemmas

section LineLemmas

theorem splitNL_ne_nil (cs : Str) : splitNL cs ≠ [] := by
  cases cs with
  | nil => simp [splitNL]
  | cons c t =>
    unfold splitNL
    split <;> simp

theorem splitNL_noNL (cs : Str) : ∀ l ∈ splitNL cs, '\n' ∉ l := by
  induction cs with
  | nil => simp [splitNL]
  | cons c t ih =>
    cases hsp : splitNL t with
    | nil => exact absurd hsp (splitNL_ne_nil t)
    | cons h r =>
      by_cases hc : c = '\n'
      · intro l hl
        simp only [splitNL, if_pos hc] at hl
        rcases List.mem_cons.mp hl with rfl | hl
        · simp
        · exact ih l hl
      · intro l hl
        simp only [splitNL, if_neg hc, hsp, List.headD_cons, List.tail_cons] at hl
        rcases List.mem_cons.mp hl with rfl | hl
        · intro hm
          rcases List.mem_cons.mp hm with hm | hm
          · exact hc hm.symm
          · exact ih h (hsp ▸ List.mem_cons_self h r) hm
        · exact ih l (hsp ▸ List.mem_cons_of_mem h hl)

theorem joinNL_splitNL (cs : Str) : joinNL (splitNL cs) = cs := by
  induction cs with
  | nil => rfl
  | cons c t ih =>
    cases hsp : splitNL t with
    | nil => exact absurd hsp (splitNL_ne_nil t)
    | cons h r =>
      rw [hsp] at ih
      by_cases hc : c = '\n'
      · subst hc
        simp only [splitNL, if_pos rfl, hsp]
        show joinNL ([] :: h :: r) = '\n' :: t
        unfold joinNL
        rw [List.nil_append, ih]
      · simp only [splitNL, if_neg hc, hsp, List.headD_cons, List.tail_cons]
        cases r with
        | nil =>
          show joinNL [c :: h] = c :: t
          unfold joinNL at ih ⊢
          rw [← ih]
        | cons l2 r2 =>
          show joinNL ((c :: h) :: l2 :: r2) = c :: t
          unfold joinNL at ih ⊢
          rw [← ih, List.cons_append]

theorem splitNL_append_newline {x : Str} (hx : '\n' ∉ x) (y : Str) :
    splitNL (x ++ '\n' :: y) = x :: splitNL y := by
  induction x with
  | nil => simp [splitNL]
  | cons c t ih =>
    have hc : c ≠ '\n' := fun h => hx (h ▸ List.mem_cons_self c t)
    have ht : '\n' ∉ t := fun h => hx (List.mem_cons_of_mem c h)
    show splitNL (c :: (t ++ '\n' :: y)) = (c :: t) :: splitNL y
    simp only [splitNL, if_neg hc, ih ht, List.headD_cons, List.tail_cons]

theorem splitNL_noNL_id {x : Str} (hx : '\n' ∉ x) : splitNL x = [x] := by
  induction x with
  | nil => rfl
  | cons c t ih =>
    have hc : c ≠ '\n' := fun h => hx (h ▸ List.mem_cons_self c t)
    have ht : '\n' ∉ t := fun h => hx (List.mem_cons_of_mem c h)
    show splitNL (c :: t) = [c :: t]
    simp only [splitNL, if_neg hc, ih ht, List.headD_cons, List.tail_cons]

theorem splitNL_joinNL {ls : List Str} (hne : ls ≠ [])
    (hnl : ∀ l ∈ ls, '\n' ∉ l) : splitNL (joinNL ls) = ls := by
  induction ls with
  | nil => exact absurd rfl hne
  | cons l r ih =>
    cases r with
    | nil =>
      show splitNL (joinNL [l]) = [l]
      unfold joinNL
      exact splitNL_noNL_id (hnl l (List.mem_cons_self l []))
    | cons l2 r2 =>
      show splitNL (joinNL (l :: l2 :: r2)) = l :: l2 :: r2
      unfold joinNL
      rw [splitNL_append_newline (hnl l (List.mem_cons_self l (l2 :: r2))),
        ih (by simp) (fun a ha => hnl a (List.mem_cons_of_mem l ha))]

theorem countNL_joinNL_cons (l l2 : Str) (r : List Str) :
    countNL (joinNL (l :: l2 :: r)) = countNL l + 1 + countNL (joinNL (l2 :: r)) := by
  show countNL (l ++ '\n' :: joinNL (l2 :: r)) = _
  unfold countNL
  rw [List.count_append, List.count_cons]
  simp [Nat.add_comm, Nat.add_assoc, Nat.add_left_comm]

/-- Mapping a line transformation that keeps lines newline-free neither
deletes nor inserts newlines. -/
theorem countNL_joinNL_map {f : Str → Str} (hf : ∀ l, '\n' ∉ l → '\n' ∉ f l)
    (ls : List Str) (hnl : ∀ l ∈ ls, '\n' ∉ l) :
    countNL (joinNL (ls.map f)) = countNL (joinNL ls) := by
  induction ls with
  | nil => rfl
  | cons l r ih =>
    cases r with
    | nil =>
      show countNL (joinNL [f l]) = countNL (joinNL [l])
      unfold joinNL countNL
      have h1 : '\n' ∉ f l := hf l (hnl l (List.mem_cons_self l []))
      have h2 : '\n' ∉ l := hnl l (List.mem_cons_self l [])
      rw [List.count_eq_zero.mpr h1, List.count_eq_zero.mpr h2]
    | cons l2 r2 =>
      have h1 : '\n' ∉ f l := hf l (hnl l (List.mem_cons_self l (l2 :: r2)))
      have h2 : '\n' ∉ l := hnl l (List.mem_cons_self l (l2 :: r2))
      have ihh := ih (fun a ha => hnl a (List.mem_cons_of_mem l ha))
      calc countNL (joinNL ((l :: l2 :: r2).map f))
          = countNL (f l) + 1 + countNL (joinNL ((l2 :: r2).map f)) := by
            rw [List.map_cons, List.map_cons]
            exact countNL_joinNL_cons (f l) (f l2) (r2.map f)
        _ = countNL l + 1 + countNL (joinNL (l2 :: r2)) := by
            rw [ihh, show countNL (f l) = 0 from List.count_eq_zero.mpr h1,
              show countNL l = 0 from List.count_eq_zero.mpr h2]
        _ = countNL (joinNL (l :: l2 :: r2)) := (countNL_joinNL_cons l l2 r2).symm

end LineLemmas

/-! ## `stripcomments` (source lines 27-37)

```python
def stripcomments(fstr):
    fstr_new=re.sub(r"^[ \t]*%.*$","",fstr,flags=re.MULTILINE)
    fstr_new=re.sub(r"^(.*[^\\\n])%.*$",r"\1",fstr_new,flags=re.MULTILINE)
    fstr_new=re.sub(r"\\begin\x7bverbatim\x7d.*?\\end\x7bverbatim\x7d", ...)
    fstr_new=re.sub(r"\\begin\x7blstlisting\x7d.*?\\end\x7blstlisting\x7d", ...)
```

The first two substitutions are per-line (`MULTILINE`, `.` and `[^\\\n]`
never cross a newline, and each match spans one whole line), so they are
embedded as line maps.  The last two are `DOTALL` non-greedy region
collapses embedded as `collapseBlock`. -/

/-- Does the line's first character other than space/tab equal `%`
(the full-line-comment test `^[ \t]*%`)? -/
def isFullCommentLine (l : Str) : Bool :=
  match l.dropWhile (fun c => c = ' ' ∨ c = '\t') with
  | c :: _ => c = '%'
  | [] => false

/-- First substitution of `stripcomments`: a line whose first
non-space/non-tab character is `%` becomes empty. -/
def rule1Line (l : Str) : Str := if isFullCommentLine l then [] else l

/-- The greedy match of `^(.*[^\\\n])%.*$`: cut just before the rightmost
`%` that has a preceding character other than `\`; `none` if there is no
such `%`. -/
def cutLastPct : Str → Option Str
  | [] => none
  | [_] => none
  | a :: b :: t =>
    match cutLastPct (b :: t) with
    | some p => some (a :: p)
    | none => if b = '%' ∧ a ≠ '\\' then some [a] else none

/-- Second substitution of `stripcomments`, per line. -/
def rule2Line (l : Str) : Str := (cutLastPct l).getD l

/-- One line through both comment substitutions. -/
def commentLine (l : Str) : Str := rule2Line (rule1Line l)

/-- Embedding of `re.sub(r"^[ \t]*%.*$","",fstr,flags=re.MULTILINE)`. -/
def subComments1 (cs : Str) : Str := joinNL ((splitNL cs).map rule1Line)

/-- Embedding of `re.sub(r"^(.*[^\\\n])%.*$",r"\1",fstr,flags=re.MULTILINE)`. -/
def subComments2 (cs : Str) : Str := joinNL ((splitNL cs).map rule2Line)

/-- Non-greedy `DOTALL` region collapse
`re.sub(bpat + ".*?" + epat, rep, cs)` for literal begin/end markers:
repeatedly find the leftmost begin marker, then the first end marker after
it, and replace the whole region by `rep`.  If a begin marker has no
following end marker nothing further matches (a later begin marker starts
at or after the end of this one, since the markers contain a single `\`,
and searches an even smaller suffix).  Fuel: each round consumes at least
one character. -/
def collapseFuel (bpat epat rep : Str) : Nat → Str → Str
  | 0, cs => cs
  | n + 1, cs =>
    match splitSub bpat cs with
    | none => cs
    | some (a, r1) =>
      match splitSub epat r1 with
      | none => cs
      | some (_, r2) => a ++ rep ++ collapseFuel bpat epat rep n r2

def collapseBlock (bpat epat rep cs : Str) : Str :=
  collapseFuel bpat epat rep cs.length cs

def beginVerbatimTok : Str := "\\begin\x7bverbatim\x7d".data
def endVerbatimTok : Str := "\\end\x7bverbatim\x7d".data
def verbatimRep : Str := "\\begin\x7bverbatim\x7d \\end\x7bverbatim\x7d".data
def beginLstTok : Str := "\\begin\x7blstlisting\x7d".data
def endLstTok : Str := "\\end\x7blstlisting\x7d".data
def lstRep : Str := "\\begin\x7blstlisting\x7d \\end\x7blstlisting\x7d".data

/-- The comment part of `stripcomments` (its first two substitutions),
which the spec's line-count invariant is about. -/
def stripcommentsNoCollapse (cs : Str) : Str := subComments2 (subComments1 cs)

/-- The source function `stripcomments`: comment removal, then the collapse of
`verbatim` and `lstlisting` regions. -/
def stripcomments (cs : Str) : Str :=
  collapseBlock beginLstTok endLstTok lstRep
    (collapseBlock beginVerbatimTok endVerbatimTok verbatimRep
      (stripcommentsNoCollapse cs))

example : stripcomments ("ab %x\n  %full\nkeep\\%this%gone".data) =
    ("ab \n\nkeep\\%this".data) := by decide
example : stripcomments ("a%b%c".data) = ("a%b".data) := by decide
example : stripcomments ("\\begin\x7bverbatim\x7dx\ny\n\\end\x7bverbatim\x7dz".data) =
    ("\\begin\x7bverbatim\x7d \\end\x7bverbatim\x7dz".data) := by decide

/-! ## `stripeqns` (source lines 40-46)

```python
def stripeqns(fstr):
    fstr_new=re.sub(r'(\\begin\x7b(math|equation\*?|displaymath'
                    r'|eqnarray\*?|align)\x7d|\\[\(\[]).*?(\\\end\x7b(math'
                    r'|equation\*?|displaymath|eqnarray\*?|align)\x7d|\\[\]\)])',
                    r"\1 xxx \3",fstr,flags=re.DOTALL)
```

The close alternative begins with `\\\e`; the unknown escape `\e` was a
literal `e` in CPython < 3.6 (so the group matches `\end` followed by an
environment name in braces), and is a `re.error` when the pattern is
compiled by CPython >= 3.6.  The embedding uses the historical literal
reading, which is plainly what the pattern intends.

`re.sub` semantics for this pattern: at the leftmost position where an
open marker matches, `.*?` (DOTALL) finds the nearest following close
marker; the region is replaced by `open ++ " xxx " ++ close` and scanning
resumes after the close marker.  An open marker with no following close
marker ends the matching: open markers contain exactly one backslash (their
first character), so any later open marker starts after the current one and
would search an even smaller suffix for a close marker. -/

/-- One environment-name alternative followed by the closing brace; falls
through to `next` on failure. -/
def tryEnv (name : Str) (cs : Str) (next : Option (Str × Str)) :
    Option (Str × Str) :=
  match stripPre (name ++ ['\x7d']) cs with
  | some r => some (name, r)
  | none => next

/-- Environment-name alternation `(math|equation\*?|displaymath|eqnarray\*?|align)\x7d`
with its closing brace, in the pattern's alternation order (the greedy
`\*?` tries the starred form first); returns the matched name and the rest
after `}`. -/
def matchEnv (cs : Str) : Option (Str × Str) :=
  tryEnv ("math".data) cs <|
  tryEnv ("equation*".data) cs <|
  tryEnv ("equation".data) cs <|
  tryEnv ("displaymath".data) cs <|
  tryEnv ("eqnarray*".data) cs <|
  tryEnv ("eqnarray".data) cs <|
  tryEnv ("align".data) cs <|
  none

/-- Open-marker alternation `\\begin\x7bENV\x7d|\\[\(\[]`: returns the matched
text and the rest. -/
def matchOpen (cs : Str) : Option (Str × Str) :=
  match stripPre ("\\begin\x7b".data) cs with
  | some r =>
    match matchEnv r with
    | some (e, r') => some ("\\begin\x7b".data ++ e ++ ['\x7d'], r')
    | none => none
  | none =>
  match stripPre ("\\(".data) cs with
  | some r => some ("\\(".data, r)
  | none =>
  match stripPre ("\\[".data) cs with
  | some r => some ("\\[".data, r)
  | none => none

/-- Close-marker alternation `\\end\x7bENV\x7d|\\[\]\)]`. -/
def matchClose (cs : Str) : Option (Str × Str) :=
  match stripPre ("\\end\x7b".data) cs with
  | some r =>
    match matchEnv r with
    | some (e, r') => some ("\\end\x7b".data ++ e ++ ['\x7d'], r')
    | none => none
  | none =>
  match stripPre ("\\]".data) cs with
  | some r => some ("\\]".data, r)
  | none =>
  match stripPre ("\\)".data) cs with
  | some r => some ("\\)".data, r)
  | none => none

/-- Non-greedy close search `.*?(close)`: the nearest position where a close
marker matches; returns (skipped text, close text, rest). -/
def findClose : Str → Option (Str × Str × Str)
  | [] => none
  | c :: t =>
    match matchClose (c :: t) with
    | some (ct, rest) => some ([], ct, rest)
    | none => (findClose t).map (fun p => (c :: p.1, p.2.1, p.2.2))

def stripeqnsFuel : Nat → Str → Str
  | 0, cs => cs
  | _ + 1, [] => []
  | n + 1, c :: t =>
    match matchOpen (c :: t) with
    | some (o, r) =>
      match findClose r with
      | some (_, ct, rest) => o ++ (" xxx ".data) ++ ct ++ stripeqnsFuel n rest
      | none => c :: t
    | none => c :: stripeqnsFuel n t

/-- The source function `stripeqns` (under the historical reading of `\\\e`). -/
def stripeqns (cs : Str) : Str := stripeqnsFuel cs.length cs

example : stripeqns ("a\\begin\x7bequation\x7db\nc\\end\x7bequation\x7dd".data) =
    ("a\\begin\x7bequation\x7d xxx \\end\x7bequation\x7dd".data) := by decide
example : stripeqns ("u \\[v\nw\\) z".data) = ("u \\[ xxx \\) z".data) := by decide
example : stripeqns ("no math here\nat all".data) =
    ("no math here\nat all".data) := by decide

/-! ## `stripinline` (source lines 49-53)

```python
def stripinline(fstr):
    fstr_new=re.sub(r"([^\\])\$\$.*?[^\\]\$\$",r"\1$xxx$",fstr,flags=re.DOTALL)
    fstr_new=re.sub(r"([^\\])\$.*?[^\\]\$",r"\1$xxx$",fstr_new,flags=re.DOTALL)
```

Both substitutions scan left to right; at the leftmost position where a
non-backslash character is followed by the dollar delimiter, `.*?` finds
the nearest following non-backslash character followed by the delimiter,
the whole match is replaced by `\1$xxx$`, and scanning resumes after the
match.  If no close exists for some open, nothing further matches (a later
open would search a smaller suffix). -/

/-- Close search for the single-dollar pattern: minimal `.*?` such that a
non-backslash character is followed by `$`; returns the rest after that `$`. -/
def splitCloseD : Str → Option Str
  | a :: b :: t => if a ≠ '\\' ∧ b = '$' then some t else splitCloseD (b :: t)
  | _ => none

/-- Close search for the double-dollar pattern (`[^\\]\$\$`). -/
def splitCloseDD : Str → Option Str
  | a :: b :: c :: t =>
    if a ≠ '\\' ∧ b = '$' ∧ c = '$' then some t else splitCloseDD (b :: c :: t)
  | _ => none

/-- First substitution of `stripinline` (`([^\\])\$\$.*?[^\\]\$\$`). -/
def subDD : Nat → Str → Str
  | 0, cs => cs
  | _ + 1, [] => []
  | _ + 1, [c] => [c]
  | _ + 1, [c, d] => [c, d]
  | n + 1, x :: d :: e :: t =>
    if x ≠ '\\' ∧ d = '$' ∧ e = '$' then
      match splitCloseDD t with
      | some rem => x :: ('$' :: 'x' :: 'x' :: 'x' :: '$' :: subDD n rem)
      | none => x :: d :: e :: t
    else x :: subDD n (d :: e :: t)

/-- Second substitution of `stripinline` (`([^\\])\$.*?[^\\]\$`). -/
def subD : Nat → Str → Str
  | 0, cs => cs
  | _ + 1, [] => []
  | _ + 1, [c] => [c]
  | n + 1, x :: d :: t =>
    if x ≠ '\\' ∧ d = '$' then
      match splitCloseD t with
      | some rem => x :: ('$' :: 'x' :: 'x' :: 'x' :: '$' :: subD n rem)
      | none => x :: d :: t
    else x :: subD n (d :: t)

def stripinlineDD (cs : Str) : Str := subDD cs.length cs
def stripinlineD (cs : Str) : Str := subD cs.length cs

/-- The source function `stripinline`. -/
def stripinline (cs : Str) : Str := stripinlineD (stripinlineDD cs)

example : stripinline ("a $1$ and $2$ b".data) =
    ("a $xxx$ and $xxx$ b".data) := by decide
example : stripinline ("x$$a$$y".data) = ("x$xxx$y".data) := by decide
example : stripinline ("a $b\nc$ d".data) = ("a $xxx$ d".data) := by decide
example : stripinline ("a$$a$$$a$$".data) = ("a$xxx$$a$$".data) := by decide
example : stripinline ("a$xxx$$a$$".data) = ("a$xxx$xxx$".data) := by decide

/-! ## `checkbib` (source lines 234-247)

```python
def checkbib(fstr):
    nb=len(re.findall(r"\\bibitem",fstr))
    if nb>0:
        nd=int(math.log(float(nb))/math.log(10.0))+1
        if not re.search(r"\x7bthebibliography}{\d\x7b"+str(nd)+r"\x7d\}",fstr):
            ... report ...
```

`nd` is the number of decimal digits of `nb`, computed in the source with
floating-point logarithms; it is embedded as `Nat.log 10 nb + 1`, which
agrees at every count relevant here (the claims instantiate `nb = 6`).
The search pattern is the literal `{thebibliography}{`, then exactly `nd`
digits, then `}`. -/

/-- Number of non-overlapping occurrences of `pat`, as `len(re.findall(pat, cs))`
for a literal pattern.  Fuel: each step consumes at least one character
(`pat` is nonempty in every use). -/
def countSubFuel (pat : Str) : Nat → Str → Nat
  | 0, _ => 0
  | _ + 1, [] => 0
  | n + 1, c :: t =>
    if pat.isPrefixOf (c :: t) then 1 + countSubFuel pat n ((c :: t).drop pat.length)
    else countSubFuel pat n t

def countSub (pat cs : Str) : Nat := countSubFuel pat cs.length cs

def bibitemTok : Str := "\\bibitem".data
def bibDeclTok : Str := "\x7bthebibliography\x7d\x7b".data

/-- Does a run of exactly `nd` digits followed by `}` start here? -/
def digitsBrace (nd : Nat) (cs : Str) : Bool :=
  match nd, cs with
  | 0, '\x7d' :: _ => true
  | 0, _ => false
  | _ + 1, [] => false
  | n + 1, c :: t => c.isDigit && digitsBrace n t

/-- Embedding of `re.search(r"\x7bthebibliography}{\d\x7bnd\x7d\}", cs)`:
somewhere in `cs`, the literal `{thebibliography}{`, then exactly `nd`
digits, then `}`. -/
def hasWidthDecl (nd : Nat) : Str → Bool
  | [] => false
  | c :: t =>
    (match stripPre bibDeclTok (c :: t) with
     | some r => digitsBrace nd r
     | none => false) ||
    hasWidthDecl nd t

/-- Number of decimal digits; the source computes
`int(math.log(float(nb))/math.log(10.0))+1`, which equals the digit count
wherever the floating-point logarithms are exact enough (in particular at
every count used in the claims, such as `nb = 6`). -/
def numDigits (n : Nat) : Nat := (Nat.repr n).length

/-- The source function `checkbib` prints its "Possible problem with number of bibitems"
report iff this is `true`. -/
def checkbib (cs : Str) : Bool :=
  let nb := countSub bibitemTok cs
  decide (0 < nb) && !hasWidthDecl (numDigits nb) cs

/-! ## `checkeqspace` (source lines 184-188)

```python
def checkeqspace(fstr):
    x=re.findall(r"^$(?:.*[ \t~])?(?:[eE]qn?|[rR]ef|[fF]ig|[sS]ec)s?\.?"
                 r"(?:[ \t~].*)?$",fstr,re.MULTILINE)
```

The pattern starts with `^$`: both anchors are zero-width, so a match can
only start at a position that is simultaneously a line start and a line
end — i.e. on an empty line — and the rest of the pattern must then match
without leaving that empty line (neither `.` nor the classes match `\n`).
The per-line matcher is therefore `line is empty AND the abbreviation part
matches inside the empty line`. -/

def spaceTieChar (c : Char) : Bool := c = ' ' ∨ c = '\t' ∨ c = '~'

/-- Embedding of `(?:[eE]qn?|[rR]ef|[fF]ig|[sS]ec)s?\.?`: returns the rest after the
longest (backtracking-preferred) form. -/
def eqAbbrevAt (cs : Str) : Option Str :=
  let core : Option Str :=
    match cs with
    | c1 :: 'q' :: 'n' :: r => if c1 = 'e' ∨ c1 = 'E' then some r else none
    | c1 :: 'q' :: r => if c1 = 'e' ∨ c1 = 'E' then some r else none
    | c1 :: 'e' :: 'f' :: r => if c1 = 'r' ∨ c1 = 'R' then some r else none
    | c1 :: 'i' :: 'g' :: r => if c1 = 'f' ∨ c1 = 'F' then some r else none
    | c1 :: 'e' :: 'c' :: r => if c1 = 's' ∨ c1 = 'S' then some r else none
    | _ => none
  match core with
  | none => none
  | some r =>
    let r1 := match r with
              | 's' :: r' => r'
              | _ => r
    match r1 with
    | '.' :: r' => some r'
    | _ => some r1

/-- Embedding of `(?:[ \t~].*)?$` inside one line. -/
def eqspaceTailOk (r : Str) : Bool :=
  match r with
  | [] => true
  | c :: _ => spaceTieChar c

/-- Try the abbreviation at every position of the line; `prevOk` records
whether the optional prefix `(?:.*[ \t~])?` can end here (position 0, or
the previous character in `[ \t~]`). -/
def eqspaceScan (prevOk : Bool) : Str → Bool
  | [] =>
    (prevOk && (match eqAbbrevAt [] with
                | some r => eqspaceTailOk r
                | none => false))
  | c :: t =>
    (prevOk && (match eqAbbrevAt (c :: t) with
                | some r => eqspaceTailOk r
                | none => false)) ||
    eqspaceScan (spaceTieChar c) t

/-- The per-line matcher of `checkeqspace`'s pattern: the `^$` prefix
forces an empty line, on which the abbreviation part must still match. -/
def eqspaceLineMatch (l : Str) : Bool := l.isEmpty && eqspaceScan true l

/-- The source function `checkeqspace`: its list of reported lines. -/
def checkeqspace (cs : Str) : List Str := (splitNL cs).filter eqspaceLineMatch

/-! ## `checkmissingbackslash` (source lines 94-100)

```python
def checkmissingbackslash(fstr):
    x=re.findall(r"^.*(?:i\.e\.|e\.g.\|n\.b\.)(?:[ \t~].*)?$",fstr,
                 re.MULTILINE|re.IGNORECASE)
    reportissues(x,...)
    x=re.findall(r"^.*a\.u\.\s+[a-z].*$",fstr,re.MULTILINE)
    reportissues(x,...)
```

In the first pattern the backslash sits after `e\.g.` instead of before
the `|`, so the alternation has exactly two branches:
`i\.e\.` and `e\.g` ANY `\|n\.b\.` (a literal `|` in the middle); matching
is case-insensitive.  The first pattern is per-line.  In the second
pattern `\s+` may cross newlines, so a match can span lines; `re.findall`
then returns the multi-line chunk. -/

def charLowEq (c low : Char) : Bool := c.toLower = low

/-- The alternation `(?:i\.e\.|e\.g.\|n\.b\.)` at the head of `cs`
(IGNORECASE); returns the rest after the match. -/
def mbAltAt (cs : Str) : Option Str :=
  match cs with
  | c1 :: '.' :: c2 :: '.' :: r =>
    if charLowEq c1 'i' ∧ charLowEq c2 'e' then some r
    else mbAltTry cs
  | _ => mbAltTry cs
where
  /-- the second branch `e\.g` ANY `\|n\.b\.` -/
  mbAltTry : Str → Option Str
  | c1 :: '.' :: c2 :: a :: '|' :: c3 :: '.' :: c4 :: '.' :: r =>
    if charLowEq c1 'e' ∧ charLowEq c2 'g' ∧ a ≠ '\n' ∧ charLowEq c3 'n' ∧
        charLowEq c4 'b' then some r
    else none
  | _ => none

def mbTailOk (r : Str) : Bool :=
  match r with
  | [] => true
  | c :: _ => spaceTieChar c

/-- Per-line matcher of the first `checkmissingbackslash` pattern. -/
def mbLineMatch : Str → Bool
  | [] =>
    (match mbAltAt [] with
     | some r => mbTailOk r
     | none => false)
  | c :: t =>
    (match mbAltAt (c :: t) with
     | some r => mbTailOk r
     | none => false) ||
    mbLineMatch t

def isLowerAZ (c : Char) : Bool := 'a' ≤ c ∧ c ≤ 'z'

/-- Cross-line part of the `a.u.` pattern: after `a\.u\.` and the
whitespace still inside the first line, `\s+` continues through entirely
whitespace lines until the first line holding a non-whitespace character,
which must be lowercase; that line's end is the match end. -/
def auCross : List Str → Option (List Str × List Str)
  | [] => none
  | l :: t =>
    if l.all pyIsSpace then (auCross t).map (fun p => (l :: p.1, p.2))
    else
      match l.dropWhile pyIsSpace with
      | c :: _ => if isLowerAZ c then some ([l], t) else none
      | [] => none

/-- After `a\.u\.` with `tl` the rest of the current line: maximal `\s+`
then `[a-z]`, possibly crossing into following lines. -/
def auAfter (tl : Str) (rest : List Str) : Option (List Str × List Str) :=
  match tl.dropWhile pyIsSpace with
  | c :: _ =>
    match tl with
    | c0 :: _ => if pyIsSpace c0 && isLowerAZ c then some ([], rest) else none
    | [] => none
  | [] => auCross rest

/-- Greedy `^.*a\.u\.` in line `l`: try the rightmost occurrence of
`a.u.` first (deeper recursion first). -/
def auInLine (l : Str) (rest : List Str) : Option (List Str × List Str) :=
  match l with
  | [] => none
  | _ :: t =>
    match auInLine t rest with
    | some r => some r
    | none =>
      match stripPre ("a.u.".data) l with
      | some tl => auAfter tl rest
      | none => none

/-- Embedding of `re.findall(r"^.*a\.u\.\s+[a-z].*$", cs, re.MULTILINE)` over the
`\n`-separated lines; each match is returned as its (possibly multi-line)
chunk.  Fuel: each match consumes at least the line it starts in. -/
def auFindallFuel : Nat → List Str → List Str
  | 0, _ => []
  | _ + 1, [] => []
  | n + 1, l :: t =>
    match auInLine l t with
    | some (consumed, rest) => joinNL (l :: consumed) :: auFindallFuel n rest
    | none => auFindallFuel n t

def auFindall (ls : List Str) : List Str := auFindallFuel ls.length ls

/-- The source function `checkmissingbackslash`: the two `findall` result lists (each fed to
`reportissues` in the source). -/
def checkmissingbackslash (cs : Str) : List Str × List Str :=
  ((splitNL cs).filter mbLineMatch, auFindall (splitNL cs))

example : checkmissingbackslash ("that is, i.e. this".data) =
    ([("that is, i.e. this".data)], []) := by decide
example : checkmissingbackslash ("This is used e.g. for testing".data) =
    ([], []) := by decide
example : checkmissingbackslash ("I.E. CAPS".data) =
    ([("I.E. CAPS".data)], []) := by decide
example : checkmissingbackslash ("5 a.u. wide".data) =
    ([], [("5 a.u. wide".data)]) := by decide
example : checkmissingbackslash ("5 a.u.\n  wide".data) =
    ([], [("5 a.u.\n  wide".data)]) := by decide
example : checkmissingbackslash ("x a.u. Big".data) = ([], []) := by decide
example : checkmissingbackslash ("q a.u.\n\n  low end\nnext".data) =
    ([], [("q a.u.\n\n  low end".data)]) := by decide

/-! ## `checkrep` (source lines 159-174)

```python
def checkrep(fstr):
    excludes=(r"\hline",r"&",r"\\",r"\end\x7bitemize\x7d",r"\end\x7benumerate\x7d",
              r"\end\x7bdescription\x7d")
    excludesre=re.compile(r"^\d+,?$|^[A-Z]\.?\\?$")
    lw=""
    x=[]
    for l in fstr.splitlines():
        for iw,w in enumerate(l.split()):
            if w==lw and not w in excludes and not excludesre.search(w):
                if iw==0:
                    x.append("... "+w+"\n"+l)
                else:
                    x.append(l)
            lw=w
    return x  # fed to reportissues
```

`lw` survives from line to line: the token stream never resets. -/

def repExcludes : List Str :=
  [("\\hline".data), ("&".data), ("\\\\".data), ("\\end\x7bitemize\x7d".data),
   ("\\end\x7benumerate\x7d".data), ("\\end\x7bdescription\x7d".data)]

/-- Embedding of `^\d+,?$|^[A-Z]\.?\\?$` as a whole-token test (the anchored pattern can
only match the whole token). -/
def repExcludesRe (w : Str) : Bool :=
  (match w.span Char.isDigit with
   | (ds, r) => !ds.isEmpty && (r.isEmpty || r = [','])) ||
  (match w with
   | c :: r =>
     (('A' ≤ c ∧ c ≤ 'Z') : Bool) &&
       (r.isEmpty || r = ['.'] || r = ['\\'] || r = ['.', '\\'])
   | [] => false)

/-- Whether a repeated token is reported. -/
def repHit (lw w : Str) : Bool :=
  w = lw && !(repExcludes.contains w) && !repExcludesRe w

/-- The inner loop over the words of one line: `first` tracks `iw == 0`;
returns the final `lw` and the entries appended for this line. -/
def repWordsGo (l : Str) (lw : Str) (first : Bool) : List Str → Str × List Str
  | [] => (lw, [])
  | w :: ws =>
    let entry := if first then ("... ".data) ++ w ++ '\n' :: l else l
    let rec0 := repWordsGo l w false ws
    (rec0.1, (if repHit lw w then [entry] else []) ++ rec0.2)

/-- One line of `checkrep`'s outer loop. -/
def repStep (st : Str × List Str) (l : Str) : Str × List Str :=
  let r := repWordsGo l st.1 true (pyWords l)
  (r.1, st.2 ++ r.2)

/-- The source function `checkrep`: its list of reported entries. -/
def checkrep (cs : Str) : List Str :=
  ((pySplitlines cs).foldl repStep ([], [])).2

example : checkrep ("a b\nb c".data) = [("... b\nb c".data)] := by decide
example : checkrep ("the the cat sat".data) = [("the the cat sat".data)] := by decide
example : checkrep ("x \\hline\n\\hline y".data) = [] := by decide
example : checkrep ("z A.\nA. q".data) = [] := by decide
example : checkrep ("q 12,\n12, r".data) = [] := by decide

/-! ## Driver (source lines 328-404)

Per argument: a help flag prints usage and exits 0 on the spot; otherwise
the extension is checked, the file is opened (both failures call
`errstop`, which is `sys.exit` on a nonempty message: exit status 1), the
file is processed, and the loop moves on.  Classification flags select
which checks run. -/

/-- The checks of the source, in call order. -/
inductive CheckName where
  | checknonascii | checkdoubledots | checkat | checkdoublecapitalisation
  | checkmissingcapitalisation | checkmissingbackslash | checkinvcommas
  | checkanconsonant | checkavowel | checkerthat | checkspacestop
  | checkstopcolon | checklyhyphen | checkneedendash | checkrep | checkeqref
  | checkeqspace | checkwrongabbrev | checkmissabbrev | checkendash
  | checkrefcase | checkminus | checkbib | checkacronyms
  | checkmultipleacronyms | checkfoils | checknotfoils | checkwordcite
  | checksuperscriptcite
  deriving DecidableEq

/-- The checks run for one document, given the three classification flags
(source lines 365-402). -/
def checksRun (aps nat foils : Bool) : List CheckName :=
  [CheckName.checknonascii, CheckName.checkdoubledots, CheckName.checkat,
   CheckName.checkdoublecapitalisation, CheckName.checkmissingcapitalisation,
   CheckName.checkmissingbackslash, CheckName.checkinvcommas,
   CheckName.checkanconsonant, CheckName.checkavowel, CheckName.checkerthat,
   CheckName.checkspacestop, CheckName.checkstopcolon, CheckName.checklyhyphen,
   CheckName.checkneedendash, CheckName.checkrep, CheckName.checkeqref,
   CheckName.checkeqspace, CheckName.checkwrongabbrev] ++
  (if nat then [] else [CheckName.checkmissabbrev]) ++
  [CheckName.checkendash, CheckName.checkrefcase, CheckName.checkminus,
   CheckName.checkbib, CheckName.checkacronyms, CheckName.checkmultipleacronyms] ++
  (if foils then [CheckName.checkfoils] else [CheckName.checknotfoils]) ++
  (if aps || nat then [CheckName.checkwordcite]
   else [CheckName.checksuperscriptcite])

/-- Outcome of the argument loop: the exit status, the files that were
read and checked, and whether usage was printed. -/
structure RunResult where
  exitCode : Nat
  processed : List Str
  usagePrinted : Bool
  deriving DecidableEq

def helpTok : Str := "-help".data
def helpTok2 : Str := "--help".data

def endsWithTex (a : Str) : Bool := (".tex".data).isSuffixOf a

/-- The argument loop (source lines 336-402), over a read-only file system
`fs` (`none`: the path cannot be opened). -/
def runArgs (fs : Str → Option Str) : List Str → List Str → RunResult
  | [], done => ⟨0, done, false⟩
  | a :: rest, done =>
    if a = helpTok ∨ a = helpTok2 then ⟨0, done, true⟩
    else if !endsWithTex a then ⟨1, done, false⟩
    else
      match fs a with
      | none => ⟨1, done, false⟩
      | some _ => runArgs fs rest (done ++ [a])

/-- Entry point: process the command-line arguments in order. -/
def runMain (fs : Str → Option Str) (args : List Str) : RunResult :=
  runArgs fs args []

/-- A demonstration file system: `x.tex` is the only readable file. -/
def fsDemo : Str → Option Str :=
  fun a => if a = ("x.tex".data) then some ("hello".data) else none

example : runMain fsDemo [("--help".data)] = ⟨0, [], true⟩ := by decide
example : runMain fsDemo [("x.tex".data)] = ⟨0, [("x.tex".data)], false⟩ := by decide
example : runMain fsDemo [("x.tex".data), ("nope.tex".data), ("y.tex".data)] =
    ⟨1, [("x.tex".data)], false⟩ := by decide

section CountLemmas

theorem countNL_nil : countNL [] = 0 := rfl

theorem countNL_cons (c : Char) (t : Str) :
    countNL (c :: t) = countNL t + (if c = '\n' then 1 else 0) := by
  simp [countNL, List.count_cons]

theorem countNL_append (a b : Str) : countNL (a ++ b) = countNL a + countNL b := by
  simp [countNL, List.count_append, Nat.add_comm]

theorem countNL_tail_le (c : Char) (t : Str) : countNL t ≤ countNL (c :: t) := by
  rw [countNL_cons]
  exact Nat.le_add_right _ _

end CountLemmas

example : numDigits 6 = 1 := by decide
example : countSub bibitemTok ("\\bibitem a\n\\bibitem b".data) = 2 := by decide
example : checkbib ("\\begin\x7bthebibliography\x7d\x7b99\x7d\n\\bibitem a".data) = true := by
  decide
example : checkbib ("\\begin\x7bthebibliography\x7d\x7b9\x7d\n\\bibitem a".data) = false := by
  decide

/-! ## Claim C7: driver dispatch -/

/-- C7 (confirmed): for every document classification, `checkmissabbrev`
runs exactly when the document is not Nature-style; exactly one of
`checkfoils`/`checknotfoils` runs, decided by the foils flag; and exactly
one citation check runs: `checkwordcite` iff APS-or-ACS-style or
Nature-style, otherwise `checksuperscriptcite`. -/
theorem C7_driver_dispatch (aps nat foils : Bool) :
    (CheckName.checkmissabbrev ∈ checksRun aps nat foils ↔ nat = false)
    ∧ (CheckName.checkfoils ∈ checksRun aps nat foils ↔ foils = true)
    ∧ (CheckName.checknotfoils ∈ checksRun aps nat foils ↔ foils = false)
    ∧ (CheckName.checkwordcite ∈ checksRun aps nat foils ↔ (aps || nat) = true)
    ∧ (CheckName.checksuperscriptcite ∈ checksRun aps nat foils
        ↔ (aps || nat) = false) := by
  cases aps <;> cases nat <;> cases foils <;> decide

/-! ## Claim C3: `checkeqspace` -/

/-- C3 (code bug): the pattern of `checkeqspace` begins with `^$`, so a
match could only start on an empty line, where the mandatory abbreviation
characters can no longer occur: the check reports nothing on any input,
contradicting its docstring `Look for e.g. "Eq. "` and the claim. -/
theorem C3_checkeqspace_reports_nothing (cs : Str) : checkeqspace cs = [] := by
  have hmatch : ∀ l : Str, eqspaceLineMatch l = false := by
    intro l
    cases l with
    | nil => rfl
    | cons c t => simp [eqspaceLineMatch]
  unfold checkeqspace
  induction splitNL cs with
  | nil => rfl
  | cons l ls ih => simp [List.filter_cons, hmatch l, ih]

example : eqspaceLineMatch ("See Eq. 1 for details".data) = false := by decide
example : checkeqspace ("See Eq. 1 for details.\nFig. 2 shows x.".data) = [] := by
  decide

/-! ## Claim C4: `checkmissingbackslash` -/

def mbDoc : Str := "We can e.g. simplify this.\nAlso n.b. the sign convention.".data

/-- C4 (code bug): the misplaced backslash in `e\.g.\|n\.b\.` turns the
intended third alternative into a literal `|` inside one long branch, so
lines with "e.g." or "n.b." followed by ordinary spacing are not
reported (only "i.e." is), contradicting the docstring
`Check for "e.g. XXX"` and the claim.  The document below contains both
"e.g. " and "n.b. " and the check reports nothing. -/
theorem C4_checkmissingbackslash_misses_eg :
    hasSub ("e.g. ".data) mbDoc = true ∧ hasSub ("n.b. ".data) mbDoc = true
    ∧ checkmissingbackslash mbDoc = ([], []) := by decide

example : checkmissingbackslash ("so i.e. this works".data) =
    ([("so i.e. this works".data)], []) := by decide

/-! ## Claim C1: line counts of the three views -/

section C1Lemmas

theorem countNL_cons_ne {c : Char} (h : c ≠ '\n') (z : Str) :
    countNL (c :: z) = countNL z := by
  rw [countNL_cons, if_neg h, Nat.add_zero]

theorem rule1Line_cases (l : Str) : rule1Line l = [] ∨ rule1Line l = l := by
  unfold rule1Line
  split
  · exact Or.inl rfl
  · exact Or.inr rfl

theorem cutLastPct_prefix : ∀ {l p : Str}, cutLastPct l = some p → ∃ t, l = p ++ t
  | [], p, h => by simp [cutLastPct] at h
  | [c], p, h => by simp [cutLastPct] at h
  | a :: b :: t, p, h => by
    unfold cutLastPct at h
    cases hc : cutLastPct (b :: t) with
    | some p0 =>
      simp only [hc] at h
      injection h with h
      subst h
      obtain ⟨t0, ht0⟩ := cutLastPct_prefix hc
      exact ⟨t0, by rw [List.cons_append, ← ht0]⟩
    | none =>
      simp only [hc] at h
      split at h
      · injection h with h
        subst h
        exact ⟨b :: t, rfl⟩
      · exact absurd h (by simp)

theorem rule2Line_cases (l : Str) :
    rule2Line l = l ∨ ∃ t, l = rule2Line l ++ t := by
  unfold rule2Line
  cases hc : cutLastPct l with
  | none => exact Or.inl rfl
  | some p => exact Or.inr (by simpa using cutLastPct_prefix hc)

theorem rule1Line_noNL {l : Str} (h : '\n' ∉ l) : '\n' ∉ rule1Line l := by
  rcases rule1Line_cases l with hr | hr <;> rw [hr]
  · simp
  · exact h

theorem rule2Line_noNL {l : Str} (h : '\n' ∉ l) : '\n' ∉ rule2Line l := by
  rcases rule2Line_cases l with hr | hr
  · rw [hr]; exact h
  · obtain ⟨t, ht⟩ := hr
    intro hm
    exact h (ht ▸ List.mem_append_left t hm)

theorem subComments1_countNL (cs : Str) :
    countNL (subComments1 cs) = countNL cs := by
  unfold subComments1
  rw [countNL_joinNL_map (fun l hl => rule1Line_noNL hl) _ (splitNL_noNL cs),
    joinNL_splitNL]

theorem subComments2_countNL (cs : Str) :
    countNL (subComments2 cs) = countNL cs := by
  unfold subComments2
  rw [countNL_joinNL_map (fun l hl => rule2Line_noNL hl) _ (splitNL_noNL cs),
    joinNL_splitNL]

theorem stripcommentsNoCollapse_countNL (cs : Str) :
    countNL (stripcommentsNoCollapse cs) = countNL cs := by
  unfold stripcommentsNoCollapse
  rw [subComments2_countNL, subComments1_countNL]

theorem tryEnv_decomp {name cs e r : Str} {next : Option (Str × Str)}
    (h : tryEnv name cs next = some (e, r)) :
    (e = name ∧ cs = e ++ '\x7d' :: r) ∨ next = some (e, r) := by
  unfold tryEnv at h
  cases hs : stripPre (name ++ ['\x7d']) cs with
  | some r0 =>
    rw [hs] at h
    injection h with h
    left
    have h1 : e = name ∧ r0 = r := by
      constructor
      · exact congrArg Prod.fst h |>.symm
      · exact congrArg Prod.snd h
    obtain ⟨rfl, rfl⟩ := h1
    refine ⟨rfl, ?_⟩
    rw [stripPre_eq_some hs, List.append_assoc]
    rfl
  | none => rw [hs] at h; exact Or.inr h

theorem matchEnv_decomp {cs e r : Str} (h : matchEnv cs = some (e, r)) :
    cs = e ++ '\x7d' :: r ∧ countNL e = 0 := by
  unfold matchEnv at h
  rcases tryEnv_decomp h with ⟨rfl, h1⟩ | h
  · exact ⟨h1, by decide⟩
  rcases tryEnv_decomp h with ⟨rfl, h1⟩ | h
  · exact ⟨h1, by decide⟩
  rcases tryEnv_decomp h with ⟨rfl, h1⟩ | h
  · exact ⟨h1, by decide⟩
  rcases tryEnv_decomp h with ⟨rfl, h1⟩ | h
  · exact ⟨h1, by decide⟩
  rcases tryEnv_decomp h with ⟨rfl, h1⟩ | h
  · exact ⟨h1, by decide⟩
  rcases tryEnv_decomp h with ⟨rfl, h1⟩ | h
  · exact ⟨h1, by decide⟩
  rcases tryEnv_decomp h with ⟨rfl, h1⟩ | h
  · exact ⟨h1, by decide⟩
  exact absurd h (by simp)

theorem matchOpen_decomp {cs o r : Str} (h : matchOpen cs = some (o, r)) :
    cs = o ++ r ∧ countNL o = 0 := by
  unfold matchOpen at h
  cases hb : stripPre ("\\begin\x7b".data) cs with
  | some rb =>
    simp only [hb] at h
    cases he : matchEnv rb with
    | some er =>
      obtain ⟨e, r'⟩ := er
      simp only [he] at h
      simp only [Option.some.injEq, Prod.mk.injEq] at h
      obtain ⟨rfl, rfl⟩ := h
      obtain ⟨hrb, hce⟩ := matchEnv_decomp he
      constructor
      · rw [stripPre_eq_some hb, hrb, List.append_assoc]
        simp
      · have h1 : countNL ("\\begin\x7b".data) = 0 := by decide
        have h2 : countNL (['\x7d'] : Str) = 0 := by decide
        rw [countNL_append, countNL_append, h1, hce, h2]
    | none => simp only [he] at h; exact absurd h (by simp)
  | none =>
    simp only [hb] at h
    cases h2 : stripPre ("\\(".data) cs with
    | some r2 =>
      simp only [h2] at h
      simp only [Option.some.injEq, Prod.mk.injEq] at h
      obtain ⟨rfl, rfl⟩ := h
      exact ⟨stripPre_eq_some h2, by decide⟩
    | none =>
      simp only [h2] at h
      cases h3 : stripPre ("\\[".data) cs with
      | some r3 =>
        simp only [h3] at h
        simp only [Option.some.injEq, Prod.mk.injEq] at h
        obtain ⟨rfl, rfl⟩ := h
        exact ⟨stripPre_eq_some h3, by decide⟩
      | none => simp only [h3] at h; exact absurd h (by simp)

theorem matchClose_decomp {cs o r : Str} (h : matchClose cs = some (o, r)) :
    cs = o ++ r ∧ countNL o = 0 := by
  unfold matchClose at h
  cases hb : stripPre ("\\end\x7b".data) cs with
  | some rb =>
    simp only [hb] at h
    cases he : matchEnv rb with
    | some er =>
      obtain ⟨e, r'⟩ := er
      simp only [he] at h
      simp only [Option.some.injEq, Prod.mk.injEq] at h
      obtain ⟨rfl, rfl⟩ := h
      obtain ⟨hrb, hce⟩ := matchEnv_decomp he
      constructor
      · rw [stripPre_eq_some hb, hrb, List.append_assoc]
        simp
      · have h1 : countNL ("\\end\x7b".data) = 0 := by decide
        have h2 : countNL (['\x7d'] : Str) = 0 := by decide
        rw [countNL_append, countNL_append, h1, hce, h2]
    | none => simp only [he] at h; exact absurd h (by simp)
  | none =>
    simp only [hb] at h
    cases h2 : stripPre ("\\]".data) cs with
    | some r2 =>
      simp only [h2] at h
      simp only [Option.some.injEq, Prod.mk.injEq] at h
      obtain ⟨rfl, rfl⟩ := h
      exact ⟨stripPre_eq_some h2, by decide⟩
    | none =>
      simp only [h2] at h
      cases h3 : stripPre ("\\)".data) cs with
      | some r3 =>
        simp only [h3] at h
        simp only [Option.some.injEq, Prod.mk.injEq] at h
        obtain ⟨rfl, rfl⟩ := h
        exact ⟨stripPre_eq_some h3, by decide⟩
      | none => simp only [h3] at h; exact absurd h (by simp)

theorem findClose_decomp : ∀ {cs skip ct rest : Str},
    findClose cs = some (skip, ct, rest) →
    cs = skip ++ ct ++ rest ∧ countNL ct = 0
  | [], _, _, _, h => by simp [findClose] at h
  | c :: t, skip, ct, rest, h => by
    unfold findClose at h
    cases hm : matchClose (c :: t) with
    | some p =>
      obtain ⟨ct0, rest0⟩ := p
      simp only [hm] at h
      simp only [Option.some.injEq, Prod.mk.injEq] at h
      obtain ⟨rfl, rfl, rfl⟩ := h
      obtain ⟨hd, hc⟩ := matchClose_decomp hm
      exact ⟨by simpa using hd, hc⟩
    | none =>
      simp only [hm] at h
      cases hf : findClose t with
      | none => simp only [hf] at h; exact absurd h (by simp)
      | some p =>
        obtain ⟨skip0, ct0, rest0⟩ := p
        simp only [hf] at h
        simp only [Option.map_some', Option.some.injEq, Prod.mk.injEq] at h
        obtain ⟨rfl, rfl, rfl⟩ := h
        obtain ⟨ht, hc⟩ := findClose_decomp hf
        refine ⟨?_, hc⟩
        rw [ht]
        simp [List.append_assoc]

theorem stripeqnsFuel_countNL_le : ∀ (n : Nat) (cs : Str),
    countNL (stripeqnsFuel n cs) ≤ countNL cs := by
  intro n
  induction n with
  | zero => intro cs; exact Nat.le_refl _
  | succ n ih =>
    intro cs
    cases cs with
    | nil => exact Nat.le_refl _
    | cons c t =>
      cases ho : matchOpen (c :: t) with
      | none =>
        have hout : stripeqnsFuel (n + 1) (c :: t) = c :: stripeqnsFuel n t := by
          simp [stripeqnsFuel, ho]
        rw [hout, countNL_cons, countNL_cons]
        have := ih t
        omega
      | some p =>
        obtain ⟨o, r⟩ := p
        cases hf : findClose r with
        | none =>
          have hout : stripeqnsFuel (n + 1) (c :: t) = c :: t := by
            simp [stripeqnsFuel, ho, hf]
          rw [hout]
        | some q =>
          obtain ⟨skip, ct, rest⟩ := q
          have hout : stripeqnsFuel (n + 1) (c :: t) =
              o ++ (" xxx ".data) ++ ct ++ stripeqnsFuel n rest := by
            simp [stripeqnsFuel, ho, hf]
          obtain ⟨hdec, hco⟩ := matchOpen_decomp ho
          obtain ⟨hdr, hcc⟩ := findClose_decomp hf
          have hxxx : countNL (" xxx ".data) = 0 := by decide
          have hsplit : countNL (c :: t) =
              countNL o + (countNL skip + (countNL ct + countNL rest)) := by
            rw [hdec, hdr, countNL_append, countNL_append, countNL_append]
            omega
          have hrec := ih rest
          rw [hout, countNL_append, countNL_append, countNL_append, hco, hxxx,
            hsplit]
          omega

theorem splitCloseD_countNL : ∀ {cs rem : Str},
    splitCloseD cs = some rem → countNL rem ≤ countNL cs
  | [], _, h => by simp [splitCloseD] at h
  | [c], _, h => by simp [splitCloseD] at h
  | a :: b :: t, rem, h => by
    unfold splitCloseD at h
    split at h
    · injection h with h
      rw [← h]
      exact le_trans (countNL_tail_le b t) (countNL_tail_le a (b :: t))
    · exact le_trans (splitCloseD_countNL h) (countNL_tail_le a (b :: t))

theorem splitCloseDD_countNL : ∀ {cs rem : Str},
    splitCloseDD cs = some rem → countNL rem ≤ countNL cs
  | [], _, h => by simp [splitCloseDD] at h
  | [c], _, h => by simp [splitCloseDD] at h
  | [c, d], _, h => by simp [splitCloseDD] at h
  | a :: b :: c :: t, rem, h => by
    unfold splitCloseDD at h
    split at h
    · injection h with h
      rw [← h]
      exact le_trans (countNL_tail_le c t)
        (le_trans (countNL_tail_le b (c :: t)) (countNL_tail_le a (b :: c :: t)))
    · exact le_trans (splitCloseDD_countNL h) (countNL_tail_le a (b :: c :: t))

theorem countNL_placeholder (x : Char) (z : Str) :
    countNL (x :: '$' :: 'x' :: 'x' :: 'x' :: '$' :: z) = countNL (x :: z) := by
  rw [countNL_cons, countNL_cons_ne (by decide), countNL_cons_ne (by decide),
    countNL_cons_ne (by decide), countNL_cons_ne (by decide),
    countNL_cons_ne (by decide), countNL_cons]

theorem subD_countNL_le : ∀ (n : Nat) (cs : Str),
    countNL (subD n cs) ≤ countNL cs := by
  intro n
  induction n with
  | zero => intro cs; exact Nat.le_refl _
  | succ n ih =>
    intro cs
    cases cs with
    | nil => exact Nat.le_refl _
    | cons x cs1 =>
    cases cs1 with
    | nil => exact Nat.le_refl _
    | cons d t =>
      by_cases hcond : x ≠ '\\' ∧ d = '$'
      · obtain ⟨hx, hd⟩ := hcond
        subst hd
        cases hc : splitCloseD t with
        | some rem =>
          have hout : subD (n + 1) (x :: '$' :: t) =
              x :: '$' :: 'x' :: 'x' :: 'x' :: '$' :: subD n rem := by
            simp [subD, hx, hc]
          rw [hout, countNL_placeholder, countNL_cons, countNL_cons,
            countNL_cons_ne (by decide)]
          have h1 := ih rem
          have h2 := splitCloseD_countNL hc
          omega
        | none =>
          have hout : subD (n + 1) (x :: '$' :: t) = x :: '$' :: t := by
            simp [subD, hx, hc]
          rw [hout]
      · have hout : subD (n + 1) (x :: d :: t) = x :: subD n (d :: t) := by
          simp only [subD, if_neg hcond]
        rw [hout, countNL_cons, countNL_cons]
        have := ih (d :: t)
        omega

theorem subDD_countNL_le : ∀ (n : Nat) (cs : Str),
    countNL (subDD n cs) ≤ countNL cs := by
  intro n
  induction n with
  | zero => intro cs; exact Nat.le_refl _
  | succ n ih =>
    intro cs
    cases cs with
    | nil => exact Nat.le_refl _
    | cons x cs1 =>
    cases cs1 with
    | nil => exact Nat.le_refl _
    | cons d cs2 =>
    cases cs2 with
    | nil => exact Nat.le_refl _
    | cons e t =>
      by_cases hcond : x ≠ '\\' ∧ d = '$' ∧ e = '$'
      · obtain ⟨hx, hd, he⟩ := hcond
        subst hd
        subst he
        cases hc : splitCloseDD t with
        | some rem =>
          have hout : subDD (n + 1) (x :: '$' :: '$' :: t) =
              x :: '$' :: 'x' :: 'x' :: 'x' :: '$' :: subDD n rem := by
            simp [subDD, hx, hc]
          rw [hout, countNL_placeholder, countNL_cons, countNL_cons,
            countNL_cons_ne (by decide), countNL_cons_ne (by decide)]
          have h1 := ih rem
          have h2 := splitCloseDD_countNL hc
          omega
        | none =>
          have hout : subDD (n + 1) (x :: '$' :: '$' :: t) = x :: '$' :: '$' :: t := by
            simp [subDD, hx, hc]
          rw [hout]
      · have hout : subDD (n + 1) (x :: d :: e :: t) = x :: subDD n (d :: e :: t) := by
          simp only [subDD, if_neg hcond]
        rw [hout, countNL_cons, countNL_cons]
        have := ih (d :: e :: t)
        omega

end C1Lemmas

def tC1 : Str := "a $b\nc$ d".data

/-- C1 (counterexample): on the two-line input `"a $b\nc$ d"` the comment
view and the `stripeqns` view keep both lines, but `stripinline` collapses
the inline span across the newline, so the no-math view has one line
while the input has two — the claimed line-count invariant fails. -/
theorem C1_counterexample :
    countNL tC1 = 1
    ∧ stripcommentsNoCollapse tC1 = tC1
    ∧ stripeqns (stripcommentsNoCollapse tC1) = tC1
    ∧ countNL (stripinline (stripeqns (stripcommentsNoCollapse tC1))) = 0 := by
  decide

/-- C1 (amended): the comment substitutions of `stripcomments` (excluding
the verbatim/listing collapse) preserve the number of lines of every
input; `stripeqns` and `stripinline` never insert newlines, so their
outputs have at most as many lines as their inputs — but they delete the
newlines inside any multi-line equation span, so equality holds only when
no collapsed span crosses a line break. -/
theorem C1_line_counts (cs : Str) :
    countNL (stripcommentsNoCollapse cs) = countNL cs
    ∧ countNL (stripeqns cs) ≤ countNL cs
    ∧ countNL (stripinline cs) ≤ countNL cs := by
  refine ⟨stripcommentsNoCollapse_countNL cs, stripeqnsFuel_countNL_le _ _, ?_⟩
  exact le_trans (subD_countNL_le _ _) (subDD_countNL_le _ _)

/-! ## Claim C2: `checkbib` and the `{thebibliography}{5}` document -/

def bibDoc : Str :=
  ("\\documentclass\x7barticle\x7d\n\\begin\x7bthebibliography\x7d\x7b5\x7d\n" ++
   "\\bibitem a\n\\bibitem b\n\\bibitem c\n\\bibitem d\n\\bibitem e\n\\bibitem f\n" ++
   "\\end\x7bthebibliography\x7d\n").data

def bibDecl5Tok : Str := "\x7bthebibliography\x7d\x7b5\x7d".data

set_option maxRecDepth 4000 in
/-- C2 (counterexample): a document with exactly six `\bibitem` markers and
the declaration argument `{thebibliography}{5}` on which `checkbib`
reports no mismatch: the check compares only the digit-width of the
argument (`5` is one digit wide, and six items need one digit), not its
value. -/
theorem C2_counterexample :
    countSub bibitemTok bibDoc = 6
    ∧ hasSub bibDecl5Tok bibDoc = true
    ∧ checkbib bibDoc = false := by decide

theorem digitsBrace_one_digit5 (b : Str) : digitsBrace 1 ('5' :: '\x7d' :: b) = true := by
  simp [digitsBrace]

theorem hasWidthDecl_cons (nd : Nat) (c : Char) (t : Str) :
    hasWidthDecl nd (c :: t) =
      ((match stripPre bibDeclTok (c :: t) with
        | some r => digitsBrace nd r
        | none => false) || hasWidthDecl nd t) := rfl

theorem hasWidthDecl_here (b : Str) :
    hasWidthDecl 1 (bibDeclTok ++ '5' :: '\x7d' :: b) = true := by
  have hshape : bibDeclTok ++ '5' :: '\x7d' :: b =
      '\x7b' :: ("thebibliography\x7d\x7b".data ++ '5' :: '\x7d' :: b) := rfl
  rw [hshape, hasWidthDecl_cons, ← hshape]
  simp only [stripPre_append, digitsBrace_one_digit5, Bool.true_or]

theorem hasWidthDecl_append (a b : Str) :
    hasWidthDecl 1 (a ++ (bibDeclTok ++ '5' :: '\x7d' :: b)) = true := by
  induction a with
  | nil => rw [List.nil_append]; exact hasWidthDecl_here b
  | cons c t ih =>
    rw [List.cons_append, hasWidthDecl_cons, ih, Bool.or_true]

/-- C2 (amended): for every document in which `\bibitem` occurs exactly six
times and which contains the declaration `{thebibliography}{5}`, `checkbib`
reports NO mismatch: the check only compares the digit-width of the
declared argument with the digit-width of the item count (both 1 here).
A width mismatch, e.g. `{thebibliography}{10}` with six items, is
reported. -/
theorem C2_checkbib_width_only (s : Str)
    (h6 : countSub bibitemTok s = 6)
    (hdecl : hasSub bibDecl5Tok s = true) :
    checkbib s = false := by
  obtain ⟨a, b, rfl⟩ := (hasSub_iff bibDecl5Tok s).mp hdecl
  have hnum : numDigits 6 = 1 := by decide
  have hshape : (a ++ bibDecl5Tok ++ b) = a ++ (bibDeclTok ++ '5' :: '\x7d' :: b) := by
    simp [bibDecl5Tok, bibDeclTok, List.append_assoc]
  simp only [checkbib, h6, hnum]
  rw [hshape, hasWidthDecl_append]
  rfl

set_option maxRecDepth 4000 in
/-- Witness for C2: the amended theorem applied to the concrete document. -/
theorem C2_witness : checkbib bibDoc = false := by
  have h := C2_checkbib_width_only bibDoc (by decide) (by decide)
  exact h

set_option maxRecDepth 4000 in
example : checkbib (("\\begin\x7bthebibliography\x7d\x7b10\x7d\n" ++
    "\\bibitem a\n\\bibitem b\n\\bibitem c\n\\bibitem d\n\\bibitem e\n\\bibitem f\n").data)
    = true := by decide

/-! ## Claim C5: comment stripping per line -/

/-- Does the line contain a `%` with a preceding character other than `\`
(the unescaped-comment-marker test of the second substitution)?  A `%` as
the very first character needs no test here: such a line is a full-line
comment. -/
def hasUnescapedPct : Str → Bool
  | a :: b :: t =>
    (if b = '%' ∧ a ≠ '\\' then true else false) || hasUnescapedPct (b :: t)
  | _ => false

theorem cutLastPct_isSome : ∀ (l : Str), (cutLastPct l).isSome = hasUnescapedPct l
  | [] => rfl
  | [_] => rfl
  | a :: b :: t => by
    have ih := cutLastPct_isSome (b :: t)
    unfold cutLastPct hasUnescapedPct
    cases hc : cutLastPct (b :: t) with
    | some p =>
      rw [hc] at ih
      simp only [Option.isSome_some] at ih
      simp [← ih]
    | none =>
      rw [hc] at ih
      simp only [Option.isSome_none] at ih
      rw [← ih]
      by_cases hcond : b = '%' ∧ a ≠ '\\'
      · rw [if_pos hcond, if_pos hcond]
        simp
      · rw [if_neg hcond, if_neg hcond]
        simp

theorem cutLastPct_spec : ∀ {l p : Str}, cutLastPct l = some p →
    ∃ i, p = l.take i ∧ l.get? i = some '%' ∧ 1 ≤ i ∧ l.get? (i - 1) ≠ some '\\'
  | [], p, h => by simp [cutLastPct] at h
  | [c], p, h => by simp [cutLastPct] at h
  | a :: b :: t, p, h => by
    unfold cutLastPct at h
    cases hc : cutLastPct (b :: t) with
    | some p0 =>
      simp only [hc] at h
      injection h with h
      subst h
      obtain ⟨i, hp, hpc, hi1, hpred⟩ := cutLastPct_spec hc
      refine ⟨i + 1, ?_, ?_, by omega, ?_⟩
      · rw [List.take_succ_cons, ← hp]
      · simpa using hpc
      · have hi : i + 1 - 1 = (i - 1) + 1 := by omega
        rw [hi, List.get?_cons_succ]
        exact hpred
    | none =>
      simp only [hc] at h
      split at h
      · rename_i hcond
        injection h with h
        subst h
        refine ⟨1, rfl, ?_, Nat.le_refl 1, ?_⟩
        · rw [List.get?_cons_succ, List.get?_cons_zero, hcond.1]
        · rw [show (1 : Nat) - 1 = 0 from rfl, List.get?_cons_zero]
          intro hcontra
          injection hcontra with hcontra
          exact hcond.2 hcontra
      · exact absurd h (by simp)

theorem commentLine_noNL {l : Str} (h : '\n' ∉ l) : '\n' ∉ commentLine l :=
  rule2Line_noNL (rule1Line_noNL h)

theorem stripcommentsNoCollapse_eq (cs : Str) :
    stripcommentsNoCollapse cs = joinNL ((splitNL cs).map commentLine) := by
  unfold stripcommentsNoCollapse subComments2 subComments1
  rw [splitNL_joinNL
    (by
      intro hmap
      exact splitNL_ne_nil cs (List.map_eq_nil_iff.mp hmap))
    (by
      intro l hl
      obtain ⟨l0, hl0, rfl⟩ := List.mem_map.mp hl
      exact rule1Line_noNL (splitNL_noNL cs l0 hl0)),
    List.map_map]
  rfl

theorem hasSub_joinNL {pat : Str} (hpat : pat ≠ []) (hn : '\n' ∉ pat) :
    ∀ (ls : List Str), hasSub pat (joinNL ls) = ls.any (hasSub pat)
  | [] => by
    cases pat with
    | nil => exact absurd rfl hpat
    | cons p ps => rfl
  | [l] => by simp [joinNL]
  | l :: l2 :: r => by
    show hasSub pat (l ++ '\n' :: joinNL (l2 :: r)) = _
    rw [hasSub_append_newline hpat hn, hasSub_joinNL hpat hn (l2 :: r)]
    simp

theorem hasSub_commentLine {pat l : Str} (hpat : pat ≠ [])
    (h : hasSub pat (commentLine l) = true) : hasSub pat l = true := by
  unfold commentLine at h
  rcases rule1Line_cases l with hr | hr
  · rw [hr] at h
    have h0 : rule2Line ([] : Str) = [] := rfl
    rw [h0] at h
    cases pat with
    | nil => exact absurd rfl hpat
    | cons p ps => simp [hasSub, List.isPrefixOf] at h
  · rw [hr] at h
    rcases rule2Line_cases l with h2 | ⟨t, ht⟩
    · rwa [h2] at h
    · rw [ht]
      exact hasSub_append_left hpat _ _ h

theorem hasSub_stripNoCollapse {pat s : Str} (hpat : pat ≠ []) (hn : '\n' ∉ pat)
    (h : hasSub pat s = false) :
    hasSub pat (stripcommentsNoCollapse s) = false := by
  rw [stripcommentsNoCollapse_eq, hasSub_joinNL hpat hn, List.any_map]
  rw [List.any_eq_false]
  intro l hl hcontra
  have h1 : hasSub pat l = true := hasSub_commentLine hpat hcontra
  have h2 : hasSub pat s = true := by
    rw [← joinNL_splitNL s, hasSub_joinNL hpat hn, List.any_eq_true]
    exact ⟨l, hl, h1⟩
  rw [h2] at h
  exact absurd h (by simp)

theorem collapseBlock_id {bpat epat rep : Str} (cs : Str)
    (h : hasSub bpat cs = false) : collapseBlock bpat epat rep cs = cs := by
  unfold collapseBlock
  cases cs.length with
  | zero => rfl
  | succ m => simp only [collapseFuel, splitSub_eq_none_of_not_hasSub cs h]

theorem stripcomments_of_no_markers {s : Str}
    (hv : hasSub beginVerbatimTok s = false) (hl : hasSub beginLstTok s = false) :
    stripcomments s = stripcommentsNoCollapse s := by
  unfold stripcomments
  have hv' : hasSub beginVerbatimTok (stripcommentsNoCollapse s) = false :=
    hasSub_stripNoCollapse (by decide) (by decide) hv
  have hl' : hasSub beginLstTok (stripcommentsNoCollapse s) = false :=
    hasSub_stripNoCollapse (by decide) (by decide) hl
  rw [collapseBlock_id _ hv', collapseBlock_id _ hl']

def tC5 : Str := "a%b%c".data

/-- C5 (counterexample): the line `a%b%c` holds an unescaped `%` at index 1
(the comment, in the language's own reading, is `%b%c`), but
`stripcomments` truncates at the last unescaped marker, producing `a%b`:
text of the trailing comment (`%b`) survives in the output line, so the
claim's "no text of the trailing comment remains" fails. -/
theorem C5_counterexample :
    tC5.get? 1 = some '%' ∧ tC5.get? 0 ≠ some '\\'
    ∧ stripcomments tC5 = ("a%b".data)
    ∧ '%' ∈ stripcomments tC5 := by decide

/-- C5 (amended): in the absence of verbatim/listing markers,
`stripcomments` transforms each line independently; a line whose first
non-blank character is `%` becomes empty, and a line containing an
unescaped `%` (not a full-line comment) is truncated just before the LAST
unescaped `%` — so text between the first and last marker survives, and
only when the line has a single unescaped marker does no comment text
remain. -/
theorem C5_stripcomments_lines (s l : Str) (k : Nat)
    (hv : hasSub beginVerbatimTok s = false)
    (hl : hasSub beginLstTok s = false)
    (hk : (splitNL s).get? k = some l) :
    (splitNL (stripcomments s)).get? k = some (commentLine l)
    ∧ (isFullCommentLine l = true → commentLine l = [])
    ∧ (isFullCommentLine l = false → hasUnescapedPct l = true →
        ∃ i, commentLine l = l.take i ∧ l.get? i = some '%' ∧ 1 ≤ i ∧
          l.get? (i - 1) ≠ some '\\') := by
  refine ⟨?_, ?_, ?_⟩
  · rw [stripcomments_of_no_markers hv hl, stripcommentsNoCollapse_eq,
      splitNL_joinNL
        (by
          intro hmap
          exact splitNL_ne_nil s (List.map_eq_nil_iff.mp hmap))
        (by
          intro l0 hl0
          obtain ⟨l1, hl1, rfl⟩ := List.mem_map.mp hl0
          exact commentLine_noNL (splitNL_noNL s l1 hl1)),
      List.get?_map, hk]
    rfl
  · intro hf
    unfold commentLine rule1Line
    rw [if_pos hf]
    rfl
  · intro hf hu
    unfold commentLine rule1Line
    rw [if_neg (by simp [hf])]
    unfold rule2Line
    cases hc : cutLastPct l with
    | none =>
      exfalso
      have hs := cutLastPct_isSome l
      rw [hc, hu] at hs
      simp at hs
    | some p =>
      obtain ⟨i, hp, h1, h2, h3⟩ := cutLastPct_spec hc
      exact ⟨i, by simpa using hp, h1, h2, h3⟩

/-- Witness for C5: the amended theorem at a concrete two-line document,
second line `keep\%esc%gone`. -/
theorem C5_witness :
    (splitNL (stripcomments (("x %note\nkeep\\%esc%gone").data))).get? 1 =
      some (commentLine (("keep\\%esc%gone").data)) :=
  (C5_stripcomments_lines _ _ 1 (by decide) (by decide) (by decide)).1

example : commentLine (("keep\\%esc%gone").data) = ("keep\\%esc").data := by decide

/-! ## Claim C6: idempotence of `stripinline` -/

theorem splitCloseD_length : ∀ {cs rem : Str},
    splitCloseD cs = some rem → rem.length + 2 ≤ cs.length
  | [], _, h => by simp [splitCloseD] at h
  | [c], _, h => by simp [splitCloseD] at h
  | a :: b :: t, rem, h => by
    unfold splitCloseD at h
    split at h
    · injection h with h
      rw [← h]
      simp
    · have := splitCloseD_length h
      simp only [List.length_cons] at this ⊢
      omega

theorem subD_fuel_irrel : ∀ (n m : Nat) (cs : Str),
    cs.length ≤ n → cs.length ≤ m → subD n cs = subD m cs := by
  intro n
  induction n with
  | zero =>
    intro m cs hn _
    have : cs = [] := List.length_eq_zero.mp (Nat.le_zero.mp hn)
    subst this
    cases m <;> rfl
  | succ n ih =>
    intro m cs hn hm
    cases cs with
    | nil => cases m <;> rfl
    | cons x cs1 =>
      cases cs1 with
      | nil =>
        cases m with
        | zero => simp at hm
        | succ m => rfl
      | cons d t =>
        cases m with
        | zero => simp at hm
        | succ m =>
          simp only [List.length_cons] at hn hm
          by_cases hcond : x ≠ '\\' ∧ d = '$'
          · cases hc : splitCloseD t with
            | some rem =>
              have hlen := splitCloseD_length hc
              have h1 : subD (n + 1) (x :: d :: t) =
                  x :: '$' :: 'x' :: 'x' :: 'x' :: '$' :: subD n rem := by
                simp [subD, hcond.1, hcond.2, hc]
              have h2 : subD (m + 1) (x :: d :: t) =
                  x :: '$' :: 'x' :: 'x' :: 'x' :: '$' :: subD m rem := by
                simp [subD, hcond.1, hcond.2, hc]
              rw [h1, h2, ih m rem (by omega) (by omega)]
            | none =>
              have h1 : subD (n + 1) (x :: d :: t) = x :: d :: t := by
                simp [subD, hcond.1, hcond.2, hc]
              have h2 : subD (m + 1) (x :: d :: t) = x :: d :: t := by
                simp [subD, hcond.1, hcond.2, hc]
              rw [h1, h2]
          · have h1 : subD (n + 1) (x :: d :: t) = x :: subD n (d :: t) := by
              simp only [subD, if_neg hcond]
            have h2 : subD (m + 1) (x :: d :: t) = x :: subD m (d :: t) := by
              simp only [subD, if_neg hcond]
            rw [h1, h2, ih m (d :: t) (by simp; omega) (by simp; omega)]

theorem stripinlineD_nil : stripinlineD [] = [] := rfl

theorem stripinlineD_single (c : Char) : stripinlineD [c] = [c] := rfl

theorem stripinlineD_open {x : Char} {t rem : Str} (hx : x ≠ '\\')
    (hc : splitCloseD t = some rem) :
    stripinlineD (x :: '$' :: t) =
      x :: '$' :: 'x' :: 'x' :: 'x' :: '$' :: stripinlineD rem := by
  have hlen := splitCloseD_length hc
  show subD (x :: '$' :: t).length (x :: '$' :: t) = _
  have h1 : (x :: '$' :: t).length = t.length + 2 := by simp
  rw [h1]
  have h2 : subD (t.length + 1 + 1) (x :: '$' :: t) =
      x :: '$' :: 'x' :: 'x' :: 'x' :: '$' :: subD (t.length + 1) rem := by
    simp [subD, hx, hc]
  rw [h2, subD_fuel_irrel (t.length + 1) rem.length rem (by omega) (Nat.le_refl _)]
  rfl

theorem stripinlineD_adv {x d : Char} {t : Str} (h : x = '\\' ∨ d ≠ '$') :
    stripinlineD (x :: d :: t) = x :: stripinlineD (d :: t) := by
  have hcond : ¬(x ≠ '\\' ∧ d = '$') := by
    rcases h with h | h
    · intro hc; exact hc.1 h
    · intro hc; exact h hc.2
  show subD (x :: d :: t).length (x :: d :: t) = _
  have h1 : (x :: d :: t).length = (d :: t).length + 1 := by simp
  rw [h1]
  have h2 : subD ((d :: t).length + 1) (x :: d :: t) =
      x :: subD (d :: t).length (d :: t) := by
    simp only [subD, if_neg hcond]
  rw [h2]
  rfl

theorem stripinlineD_noclose {x : Char} {t : Str} (hx : x ≠ '\\')
    (hc : splitCloseD t = none) :
    stripinlineD (x :: '$' :: t) = x :: '$' :: t := by
  show subD (x :: '$' :: t).length (x :: '$' :: t) = _
  have h1 : (x :: '$' :: t).length = t.length + 1 + 1 := by simp
  rw [h1]
  simp [subD, hx, hc]

theorem stripinlineD_cons_head : ∀ (c : Char) (t : Str),
    ∃ w, stripinlineD (c :: t) = c :: w := by
  intro c t
  cases t with
  | nil => exact ⟨[], rfl⟩
  | cons d t' =>
    by_cases hcond : c ≠ '\\' ∧ d = '$'
    · obtain ⟨hx, hd⟩ := hcond
      subst hd
      cases hc : splitCloseD t' with
      | some rem => exact ⟨_, stripinlineD_open hx hc⟩
      | none => exact ⟨_, stripinlineD_noclose hx hc⟩
    · have h : c = '\\' ∨ d ≠ '$' := by
        by_cases hx : c = '\\'
        · exact Or.inl hx
        · right
          intro hd
          exact hcond ⟨hx, hd⟩
      exact ⟨_, stripinlineD_adv h⟩

theorem splitCloseD_placeholder (z : Str) :
    splitCloseD ('x' :: 'x' :: 'x' :: '$' :: z) = some z := by
  simp [splitCloseD]

/-- The single-dollar pass of `stripinline` is idempotent: spans already
collapsed to `$xxx$` re-match and are replaced by themselves. -/
theorem stripinlineD_idem : ∀ (cs : Str),
    stripinlineD (stripinlineD cs) = stripinlineD cs := by
  have H : ∀ (n : Nat) (cs : Str), cs.length ≤ n →
      stripinlineD (stripinlineD cs) = stripinlineD cs := by
    intro n
    induction n with
    | zero =>
      intro cs hn
      have : cs = [] := List.length_eq_zero.mp (Nat.le_zero.mp hn)
      subst this
      rfl
    | succ n ih =>
      intro cs hn
      cases cs with
      | nil => simp [stripinlineD_nil]
      | cons x cs1 =>
        cases cs1 with
        | nil => simp [stripinlineD_single]
        | cons d t =>
          simp only [List.length_cons] at hn
          by_cases hcond : x ≠ '\\' ∧ d = '$'
          · obtain ⟨hx, hd⟩ := hcond
            subst hd
            cases hc : splitCloseD t with
            | some rem =>
              have hlen := splitCloseD_length hc
              rw [stripinlineD_open hx hc,
                stripinlineD_open hx (splitCloseD_placeholder (stripinlineD rem)),
                ih rem (by omega)]
            | none => rw [stripinlineD_noclose hx hc, stripinlineD_noclose hx hc]
          · have hadv : x = '\\' ∨ d ≠ '$' := by
              by_cases hx : x = '\\'
              · exact Or.inl hx
              · right
                intro hdd
                exact hcond ⟨hx, hdd⟩
            obtain ⟨w, hw⟩ := stripinlineD_cons_head d t
            rw [stripinlineD_adv hadv, hw, stripinlineD_adv hadv, ← hw,
              ih (d :: t) (by simp; omega)]
  intro cs
  exact H cs.length cs (Nat.le_refl _)

/-- If the text contains no `$$`, the double-dollar pass is the identity
(for any fuel). -/
theorem subDD_id_of_no_dd : ∀ (n : Nat) {cs : Str},
    hasSub ("$$".data) cs = false → subDD n cs = cs := by
  intro n
  induction n with
  | zero => intro cs _; rfl
  | succ n ih =>
    intro cs h
    cases cs with
    | nil => rfl
    | cons x cs1 =>
      cases cs1 with
      | nil => rfl
      | cons d cs2 =>
        cases cs2 with
        | nil => rfl
        | cons e t =>
          have htail : hasSub ("$$".data) (d :: e :: t) = false := by
            have hh := h
            rw [hasSub_cons, Bool.or_eq_false_iff] at hh
            exact hh.2
          by_cases hcond : x ≠ '\\' ∧ d = '$' ∧ e = '$'
          · exfalso
            obtain ⟨hx, hd, he⟩ := hcond
            subst hd
            subst he
            have hpre : ("$$".data).isPrefixOf ('$' :: '$' :: t) = true := by
              simp [List.isPrefixOf]
            rw [hasSub_cons, hpre] at htail
            simp at htail
          · have hout : subDD (n + 1) (x :: d :: e :: t) =
                x :: subDD n (d :: e :: t) := by
              simp only [subDD, if_neg hcond]
            rw [hout, ih htail]

theorem stripinlineDD_id_of_no_dd {cs : Str}
    (h : hasSub ("$$".data) cs = false) : stripinlineDD cs = cs :=
  subDD_id_of_no_dd cs.length h

def tC6 : Str := "a$$a$$$a$$".data

/-- C6 (counterexample): `stripinline` is not idempotent.  On
`a$$a$$$a$$` the first pass yields `a$xxx$$a$$`; the second pass's
double-dollar rule then matches across the freshly created `$$` and
collapses further, to `a$xxx$xxx$`. -/
theorem C6_counterexample :
    stripinline (stripinline tC6) ≠ stripinline tC6 := by decide

/-- C6 (amended): the single-dollar pass is idempotent (already-collapsed
`$xxx$` spans are re-matched and replaced by themselves), and
`stripinline` as a whole is idempotent on every input whose output
contains no `$$`; when the output retains a `$$` adjacent to a collapsed
span, a second application can collapse further. -/
theorem C6_stripinline_idem (s : Str) :
    stripinlineD (stripinlineD s) = stripinlineD s
    ∧ (hasSub ("$$".data) (stripinline s) = false →
        stripinline (stripinline s) = stripinline s) := by
  refine ⟨stripinlineD_idem s, ?_⟩
  intro h
  show stripinlineD (stripinlineDD (stripinline s)) = stripinline s
  rw [stripinlineDD_id_of_no_dd h]
  show stripinlineD (stripinlineD (stripinlineDD s)) = stripinline s
  rw [stripinlineD_idem]
  rfl

/-- Witness for C6: the amended theorem at `a $1$ b`, whose collapsed form
has no `$$`. -/
theorem C6_witness :
    stripinline (stripinline (("a $1$ b").data)) =
      stripinline (("a $1$ b").data) :=
  (C6_stripinline_idem (("a $1$ b").data)).2 (by decide)

/-! ## Claims C8 and C9: argument handling -/

theorem endsWithTex_ne_help {a : Str} (h : endsWithTex a = true) :
    ¬(a = helpTok ∨ a = helpTok2) := by
  rintro (rfl | rfl) <;> exact absurd h (by decide)

/-- One step of the argument loop. -/
theorem runArgs_cons (fs : Str → Option Str) (a : Str) (rest done : List Str) :
    runArgs fs (a :: rest) done =
      if a = helpTok ∨ a = helpTok2 then ⟨0, done, true⟩
      else if (!endsWithTex a) = true then ⟨1, done, false⟩
      else
        match fs a with
        | none => ⟨1, done, false⟩
        | some _ => runArgs fs rest (done ++ [a]) := rfl

/-- Valid `.tex` arguments at the front of the argument list are processed
and the loop continues behind them. -/
theorem runArgs_valid_front (fs : Str → Option Str) :
    ∀ (pre rest done : List Str),
    (∀ a ∈ pre, endsWithTex a = true ∧ (fs a).isSome = true) →
    runArgs fs (pre ++ rest) done = runArgs fs rest (done ++ pre) := by
  intro pre
  induction pre with
  | nil => intro rest done _; simp
  | cons a pre' ih =>
    intro rest done hpre
    have ha := hpre a (List.mem_cons_self a pre')
    have hnh : ¬(a = helpTok ∨ a = helpTok2) := endsWithTex_ne_help ha.1
    obtain ⟨v, hv⟩ := Option.isSome_iff_exists.mp ha.2
    have hstep : runArgs fs (a :: (pre' ++ rest)) done =
        runArgs fs (pre' ++ rest) (done ++ [a]) := by
      rw [runArgs_cons, if_neg hnh,
        if_neg (show ¬((!endsWithTex a) = true) by rw [ha.1]; decide)]
      simp only [hv]
    show runArgs fs (a :: (pre' ++ rest)) done = _
    rw [hstep, ih rest (done ++ [a]) (fun b hb => hpre b (List.mem_cons_of_mem a hb)),
      List.append_assoc]
    rfl

def argsC8 : List Str := [("x.tex".data), ("--help".data)]

/-- C8 (counterexample): with arguments `x.tex --help`, the help flag is
present, the program exits 0 and prints usage — but `x.tex` has already
been read and checked, so "performed no file processing" fails: the help
test sits inside the per-argument loop and only short-circuits arguments
after it. -/
theorem C8_counterexample :
    helpTok2 ∈ argsC8
    ∧ runMain fsDemo argsC8 = ⟨0, [("x.tex".data)], true⟩
    ∧ (runMain fsDemo argsC8).processed ≠ [] := by decide

/-- C8 (amended): the program prints usage and exits 0 the moment the
argument loop reaches a help flag; the (readable `.tex`) arguments listed
before the flag are processed first, and no processing occurs only when
the help flag precedes every path. -/
theorem C8_help_stops_loop (fs : Str → Option Str) (h : Str) (pre post : List Str)
    (hh : h = helpTok ∨ h = helpTok2)
    (hpre : ∀ a ∈ pre, endsWithTex a = true ∧ (fs a).isSome = true) :
    runMain fs (pre ++ h :: post) = ⟨0, pre, true⟩ := by
  unfold runMain
  rw [runArgs_valid_front fs pre (h :: post) [] hpre, runArgs_cons, if_pos hh]
  rfl

/-- Witness for C8: `x.tex --help y.tex` processes `x.tex`, then exits 0 at
the flag. -/
theorem C8_witness :
    runMain fsDemo [("x.tex".data), ("--help".data), ("y.tex".data)] =
      ⟨0, [("x.tex".data)], true⟩ :=
  C8_help_stops_loop fsDemo ("--help".data) [("x.tex".data)] [("y.tex".data)]
    (Or.inr rfl) (by decide)

def argsC9 : List Str := [("x.tex".data), ("--help".data), ("bad".data)]

/-- C9 (counterexample): the argument `bad` does not end in `.tex`, yet
the run exits with status 0 — a help flag earlier in the list ends the
run before the offending argument is examined, so "any argument that is
not a `.tex` path halts the run with non-zero status" fails as stated. -/
theorem C9_counterexample :
    ("bad".data) ∈ argsC9
    ∧ endsWithTex ("bad".data) = false
    ∧ runMain fsDemo argsC9 = ⟨0, [("x.tex".data)], true⟩ := by decide

/-- C9 (amended): (a) when every argument is a readable `.tex` path the
program processes them all and exits 0, regardless of how many issues the
checks print; (b) when the arguments up to some position are readable
`.tex` paths and the next argument is neither a help flag nor a readable
`.tex` path, the run stops right there with exit status 1, processing no
further file. -/
theorem C9_fatal_errors (fs : Str → Option Str) :
    (∀ args : List Str,
      (∀ a ∈ args, endsWithTex a = true ∧ (fs a).isSome = true) →
      runMain fs args = ⟨0, args, false⟩)
    ∧ (∀ (pre : List Str) (b : Str) (post : List Str),
      (∀ a ∈ pre, endsWithTex a = true ∧ (fs a).isSome = true) →
      ¬(b = helpTok ∨ b = helpTok2) →
      (endsWithTex b = false ∨ fs b = none) →
      runMain fs (pre ++ b :: post) = ⟨1, pre, false⟩) := by
  constructor
  · intro args hargs
    unfold runMain
    have h := runArgs_valid_front fs args [] [] hargs
    rw [List.append_nil] at h
    rw [h]
    rfl
  · intro pre b post hpre hnh hbad
    unfold runMain
    rw [runArgs_valid_front fs pre (b :: post) [] hpre, runArgs_cons, if_neg hnh]
    rcases hbad with hbad | hbad
    · rw [if_pos (show ((!endsWithTex b) = true) by rw [hbad]; decide)]
      rfl
    · cases het : endsWithTex b with
      | false => rfl
      | true =>
        rw [if_neg (show ¬((!(true : Bool)) = true) by decide)]
        simp only [hbad]
        rfl

/-- Witness for C9: both halves at concrete inputs: all-good arguments exit
0 having processed everything; a bad argument after a good one stops the
run at exit 1 without touching the rest. -/
theorem C9_witness :
    runMain fsDemo [("x.tex".data)] = ⟨0, [("x.tex".data)], false⟩
    ∧ runMain fsDemo [("x.tex".data), ("bad.pdf".data), ("y.tex".data)] =
        ⟨1, [("x.tex".data)], false⟩ :=
  ⟨(C9_fatal_errors fsDemo).1 [("x.tex".data)] (by decide),
   (C9_fatal_errors fsDemo).2 [("x.tex".data)] ("bad.pdf".data) [("y.tex".data)]
     (by decide) (by decide) (by decide)⟩

/-! ## Claim C10: `checkrep` never resets between lines -/

theorem repWordsGo_fst (l : Str) : ∀ (ws : List Str) (lw : Str) (first : Bool),
    (repWordsGo l lw first ws).1 = ws.getLastD lw
  | [], lw, first => rfl
  | w :: ws, lw, first => by
    show (repWordsGo l lw first (w :: ws)).1 = _
    unfold repWordsGo
    simp only []
    rw [repWordsGo_fst l ws w false, List.getLastD_cons]

theorem repWordsGo_first_hit (l : Str) (w : Str) (ws : List Str)
    (hhit : repHit w w = true) :
    (("... ".data) ++ w ++ '\n' :: l) ∈ (repWordsGo l w true (w :: ws)).2 := by
  unfold repWordsGo
  simp only [hhit, if_true]
  exact List.mem_append_left _ (List.mem_singleton.mpr rfl)

theorem repStep_mono {x : Str} {st : Str × List Str} (h : x ∈ st.2) (l : Str) :
    x ∈ (repStep st l).2 :=
  List.mem_append_left _ h

theorem foldl_repStep_mono {x : Str} : ∀ (ls : List Str) (st : Str × List Str),
    x ∈ st.2 → x ∈ (ls.foldl repStep st).2
  | [], _, h => h
  | l :: ls, st, h => foldl_repStep_mono ls (repStep st l) (repStep_mono h l)

theorem checkrep_entry (ls : List Str) (st : Str × List Str) (k : Nat)
    (l1 l2 w : Str)
    (h1 : ls.get? k = some l1) (h2 : ls.get? (k + 1) = some l2)
    (hw1 : (pyWords l1).getLast? = some w) (hw2 : (pyWords l2).head? = some w)
    (hhit : repHit w w = true) :
    (("... ".data) ++ w ++ '\n' :: l2) ∈ (ls.foldl repStep st).2 := by
  induction k generalizing ls st with
  | zero =>
    cases ls with
    | nil => simp at h1
    | cons a rest =>
      simp only [List.get?_cons_zero, Option.some.injEq] at h1
      subst h1
      cases rest with
      | nil => simp at h2
      | cons b rest2 =>
        simp only [List.get?_cons_succ, List.get?_cons_zero, Option.some.injEq] at h2
        subst h2
        rw [List.foldl_cons, List.foldl_cons]
        apply foldl_repStep_mono
        have hlw : (repStep st a).1 = w := by
          show (repWordsGo a st.1 true (pyWords a)).1 = w
          rw [repWordsGo_fst, List.getLastD_eq_getLast?, hw1]
          rfl
        cases hw : pyWords b with
        | nil => rw [hw] at hw2; simp at hw2
        | cons w0 ws =>
          rw [hw] at hw2
          simp only [List.head?_cons, Option.some.injEq] at hw2
          subst hw2
          have hsnd : (repStep (repStep st a) b).2 =
              (repStep st a).2 ++
                (repWordsGo b (repStep st a).1 true (pyWords b)).2 := rfl
          rw [hsnd, hlw, hw]
          exact List.mem_append_right _ (repWordsGo_first_hit b w0 ws hhit)
  | succ k ih =>
    cases ls with
    | nil => simp at h1
    | cons a rest =>
      rw [List.foldl_cons]
      exact ih rest (repStep st a) (by simpa using h1) (by simpa using h2)

/-- C10 (confirmed): `checkrep` scans the document as one token stream that
never resets between lines (`lw` is initialised once, outside the line
loop): whenever the last token of a line equals the first token of the
next line, the token is not in the exclusion tuple and does not match the
bare-number/single-letter-label pattern, the repetition is reported, and
because the repeated token is the first word of its line (`iw == 0`) the
entry carries the `"... <token>"` prefix line above the offending line. -/
theorem C10_checkrep_no_reset (cs : Str) (k : Nat) (l1 l2 w : Str)
    (h1 : (pySplitlines cs).get? k = some l1)
    (h2 : (pySplitlines cs).get? (k + 1) = some l2)
    (hw1 : (pyWords l1).getLast? = some w)
    (hw2 : (pyWords l2).head? = some w)
    (hex : repExcludes.contains w = false)
    (hre : repExcludesRe w = false) :
    (("... ".data) ++ w ++ '\n' :: l2) ∈ checkrep cs := by
  have hhit : repHit w w = true := by
    unfold repHit
    rw [hex, hre]
    simp
  exact checkrep_entry (pySplitlines cs) ([], []) k l1 l2 w h1 h2 hw1 hw2 hhit

/-- Witness for C10: in `a b\nb c` the token `b` ends line 0 and starts
line 1, and the report carries the `... b` prefix line. -/
theorem C10_witness :
    (("... b\nb c").data) ∈ checkrep (("a b\nb c").data) := by
  have h := C10_checkrep_no_reset (("a b\nb c").data) 0 (("a b").data)
    (("b c").data) (("b").data) (by decide) (by decide) (by decide) (by decide)
    (by decide) (by decide)
  exact h
